import Mathlib

/-! Symbolic expression engine (`composite.cpp`)

A shallow embedding of the `Expression` class hierarchy of `composite.cpp`:
the node variants, `isConstant`, `evaluate`, `derivative` and `toString`.  The
graph iterator of `main.cpp` follows in a section of its own.

* The C++ class hierarchy (`Constant`, `Variable`, the `BinaryOperation`s `Add`,
  `Subtract`, `Multiply`, `Power`, `Divide` and the `UnaryFunction`s `Cos`, `Sin`)
  is a closed set of variants, embedded as one inductive type.  Nodes are never
  mutated after construction, so a `shared_ptr` child is embedded as the child value.
* The scalar type of the source is `double`.  The embedding is parametric in the
  scalar type `α` and in the arithmetic used on it (`Scalar α`), which carries
  no laws: the structural results hold for every choice of arithmetic.
  `Scalar.real` is the arithmetic of the exact reals.
* `Power::derivative` throws `std::runtime_error`; `derivative` returns
  `Except String`, the error carrying the text of the source.
* `evaluateExact` is `evaluate` over the reals with the results that are no real
  number (NaN, an infinity) made explicit.
-/

/-- The arithmetic that the source performs on its scalar type: the literals
`0.0`, `1.0`, `2.0`, `-1.0`, the operators `+ - * /`, and `std::pow`, `std::sin`,
`std::cos`. -/
structure Scalar (α : Type) where
  zero : α
  one : α
  two : α
  negOne : α
  add : α → α → α
  sub : α → α → α
  mul : α → α → α
  div : α → α → α
  pow : α → α → α
  sin : α → α
  cos : α → α

/-- Arithmetic over the exact reals.  `std::pow` is the real power function
`Real.rpow`: it is the mathematical value of `std::pow` for a positive base and
for a natural-number exponent (any base, `0 ^ 0 = 1` included); where `std::pow`
yields NaN or an infinity it is some real number, and nothing is claimed there. -/
noncomputable def Scalar.real : Scalar ℝ where
  zero := 0
  one := 1
  two := 2
  negOne := -1
  add := fun a b => a + b
  sub := fun a b => a - b
  mul := fun a b => a * b
  div := fun a b => a / b
  pow := fun a b => a ^ b
  sin := Real.sin
  cos := Real.cos

/-- The node variants of `class Expression` (in the order of the source). -/
inductive Expression (α : Type) where
  | Constant (value : α)
  | Variable
  | Add (left right : Expression α)
  | Subtract (left right : Expression α)
  | Multiply (left right : Expression α)
  | Power (left right : Expression α)
  | Divide (left right : Expression α)
  | Cos (arg : Expression α)
  | Sin (arg : Expression α)
  deriving DecidableEq

namespace Expression

variable {α : Type}

/-- `Expression::isConstant(double& out)`: the base class returns `false`, only
`Constant` overrides it, storing its value in `out` and returning `true`. -/
def isConstant : Expression α → Option α
  | Constant value => some value
  | _ => none

/-- `evaluate(double x)` of every variant. -/
def evaluate (S : Scalar α) : Expression α → α → α
  | Constant value, _ => value
  | Variable, x => x
  | Add left right, x => S.add (evaluate S left x) (evaluate S right x)
  | Subtract left right, x => S.sub (evaluate S left x) (evaluate S right x)
  | Multiply left right, x => S.mul (evaluate S left x) (evaluate S right x)
  | Power left right, x => S.pow (evaluate S left x) (evaluate S right x)
  | Divide left right, x => S.div (evaluate S left x) (evaluate S right x)
  | Cos arg, x => S.cos (evaluate S arg x)
  | Sin arg, x => S.sin (evaluate S arg x)

/-- The text of the `std::runtime_error` thrown by `Power::derivative`. -/
def unsupportedExponent : String :=
  "Power::derivative solo soporta exponente constante (sin dynamic_cast)."

/-- `derivative()` of every variant.  An exception thrown by the derivative of a
child propagates; the only `throw` is the one of `Power::derivative`, so the
order in which the two children of a binary node are differentiated does not
change the outcome. -/
def derivative (S : Scalar α) : Expression α → Except String (Expression α)
  | Constant _ => .ok (Constant S.zero)
  | Variable => .ok (Constant S.one)
  | Add left right => do
      let dl ← derivative S left
      let dr ← derivative S right
      pure (Add dl dr)
  | Subtract left right => do
      let dl ← derivative S left
      let dr ← derivative S right
      pure (Subtract dl dr)
  | Multiply left right => do
      let dl ← derivative S left
      let dr ← derivative S right
      pure (Add (Multiply dl right) (Multiply left dr))
  | Power left right =>
      match isConstant right with
      | none => .error unsupportedExponent
      | some n => do
          let dl ← derivative S left
          pure (Multiply (Multiply (Constant n) (Power left (Constant (S.sub n S.one)))) dl)
  | Divide left right => do
      let dl ← derivative S left
      let dr ← derivative S right
      pure (Divide (Subtract (Multiply dl right) (Multiply left dr))
        (Power right (Constant S.two)))
  | Cos arg => do
      let da ← derivative S arg
      pure (Multiply (Multiply (Constant S.negOne) (Sin arg)) da)
  | Sin arg => do
      let da ← derivative S arg
      pure (Multiply (Cos arg) da)

/-- Calling `derivative()` on the result, `n` times over. -/
def nthDerivative (S : Scalar α) : Nat → Expression α → Except String (Expression α)
  | 0, e => .ok e
  | n + 1, e => do
      let d ← nthDerivative S n e
      derivative S d

/-- Every node of an expression: the expression itself and the nodes of its children. -/
def subexpressions : Expression α → List (Expression α)
  | Constant value => [Constant value]
  | Variable => [Variable]
  | Add left right => Add left right :: (subexpressions left ++ subexpressions right)
  | Subtract left right => Subtract left right :: (subexpressions left ++ subexpressions right)
  | Multiply left right => Multiply left right :: (subexpressions left ++ subexpressions right)
  | Power left right => Power left right :: (subexpressions left ++ subexpressions right)
  | Divide left right => Divide left right :: (subexpressions left ++ subexpressions right)
  | Cos arg => Cos arg :: subexpressions arg
  | Sin arg => Sin arg :: subexpressions arg

/-- The per-variant table of the specification of `evaluate`, as a relation
between an expression, the point `x` and the value. -/
inductive Denotes (S : Scalar α) (x : α) : Expression α → α → Prop where
  | ofConstant (v : α) : Denotes S x (Constant v) v
  | ofVariable : Denotes S x Variable x
  | ofAdd {l r : Expression α} {a b : α} :
      Denotes S x l a → Denotes S x r b → Denotes S x (Add l r) (S.add a b)
  | ofSubtract {l r : Expression α} {a b : α} :
      Denotes S x l a → Denotes S x r b → Denotes S x (Subtract l r) (S.sub a b)
  | ofMultiply {l r : Expression α} {a b : α} :
      Denotes S x l a → Denotes S x r b → Denotes S x (Multiply l r) (S.mul a b)
  | ofDivide {l r : Expression α} {a b : α} :
      Denotes S x l a → Denotes S x r b → Denotes S x (Divide l r) (S.div a b)
  | ofPower {l r : Expression α} {a b : α} :
      Denotes S x l a → Denotes S x r b → Denotes S x (Power l r) (S.pow a b)
  | ofSin {e : Expression α} {a : α} : Denotes S x e a → Denotes S x (Sin e) (S.sin a)
  | ofCos {e : Expression α} {a : α} : Denotes S x e a → Denotes S x (Cos e) (S.cos a)

/-- Every `Power` node anywhere in the expression has a literal `Constant` node
as its exponent child. -/
def ConstExponents (e : Expression α) : Prop :=
  ∀ b ex, Power b ex ∈ subexpressions e → ∃ v, ex = Constant v

/-- The expression built by `main`: `(x^2 + 3*x) * sin(x)`. -/
noncomputable def driverExpr : Expression ℝ :=
  Multiply (Add (Power Variable (Constant 2)) (Multiply (Constant 3) Variable)) (Sin Variable)

/-- `toString()` of every variant.  `Constant::toString` writes the value with
`os << value`; the text that the stream library produces for a `double` is the
parameter `fmt`. -/
def toString (fmt : α → String) : Expression α → String
  | Constant value => fmt value
  | Variable => "x"
  | Add left right => "(" ++ toString fmt left ++ " + " ++ toString fmt right ++ ")"
  | Subtract left right => "(" ++ toString fmt left ++ " - " ++ toString fmt right ++ ")"
  | Multiply left right => "(" ++ toString fmt left ++ " * " ++ toString fmt right ++ ")"
  | Power left right => "(" ++ toString fmt left ++ " ^ " ++ toString fmt right ++ ")"
  | Divide left right => "(" ++ toString fmt left ++ " / " ++ toString fmt right ++ ")"
  | Cos arg => "cos(" ++ toString fmt arg ++ ")"
  | Sin arg => "sin(" ++ toString fmt arg ++ ")"

/-- The shape of a tree: the same variant at every position, the numeric values
of the `Constant` leaves forgotten. -/
def shape : Expression α → Expression Unit
  | Constant _ => Constant ()
  | Variable => Variable
  | Add left right => Add (shape left) (shape right)
  | Subtract left right => Subtract (shape left) (shape right)
  | Multiply left right => Multiply (shape left) (shape right)
  | Power left right => Power (shape left) (shape right)
  | Divide left right => Divide (shape left) (shape right)
  | Cos arg => Cos (shape arg)
  | Sin arg => Sin (shape arg)

/-- The pairs on which `std::pow(b, e)` is a real number: a positive base, a zero
base with a non-negative exponent, or a negative base with an integer exponent.
Elsewhere `std::pow` reports a pole error (an infinity) or a domain error (NaN). -/
def PowDefined (b e : ℝ) : Prop :=
  0 < b ∨ (b = 0 ∧ 0 ≤ e) ∨ (b < 0 ∧ ∃ k : ℤ, (k : ℝ) = e)

open Classical in
/-- `evaluate(double x)` read over the exact reals with the exceptional results
made explicit: `none` stands for a result that is not a real number (a division
by zero, a pole or domain error of `std::pow`), and an exceptional value of a
child makes the value of the parent exceptional. -/
noncomputable def evaluateExact : Expression ℝ → ℝ → Option ℝ
  | Constant value, _ => some value
  | Variable, x => some x
  | Add left right, x => do
      let a ← evaluateExact left x
      let b ← evaluateExact right x
      pure (a + b)
  | Subtract left right, x => do
      let a ← evaluateExact left x
      let b ← evaluateExact right x
      pure (a - b)
  | Multiply left right, x => do
      let a ← evaluateExact left x
      let b ← evaluateExact right x
      pure (a * b)
  | Power left right, x => do
      let a ← evaluateExact left x
      let b ← evaluateExact right x
      if PowDefined a b then pure (a ^ b) else none
  | Divide left right, x => do
      let a ← evaluateExact left x
      let b ← evaluateExact right x
      if b = 0 then none else pure (a / b)
  | Cos arg, x => do
      let a ← evaluateExact arg x
      pure (Real.cos a)
  | Sin arg, x => do
      let a ← evaluateExact arg x
      pure (Real.sin a)

end Expression

/-! ## The graph iterator (`main.cpp`)

`Graph` keeps its adjacency in `adj_`, an `unordered_map` from a vertex to the
vector of its neighbours.  The map is embedded as an association list in
insertion order with one entry per key; the code only finds, emplaces and
updates entries by key, so the iteration order of the map plays no role.
`discovered_`, an `unordered_set`, is embedded as a list without repetition.
Vertex identifiers are `int`s on which no arithmetic is done. -/

/-- `class Node`. -/
structure Node where
  id_ : Int
  deriving DecidableEq

/-- `class Graph`: the maps `adj_` and `nodes_`. -/
structure Graph where
  adj_ : List (Int × List Int)
  nodes_ : List (Int × Node)

namespace Graph

/-- A default-constructed `Graph`. -/
def empty : Graph := ⟨[], []⟩

/-- `ensureNode_(id)`: `emplace` an entry in `nodes_` and in `adj_` where `find`
reports none. -/
def ensureNode_ (g : Graph) (id : Int) : Graph :=
  { nodes_ := if (g.nodes_.lookup id).isNone then g.nodes_ ++ [(id, ⟨id⟩)] else g.nodes_
    adj_ := if (g.adj_.lookup id).isNone then g.adj_ ++ [(id, [])] else g.adj_ }

/-- `adj_[src].push_back(dst)`; `operator[]` inserts an empty vector for a key
that is not in the map. -/
def pushBack (adj : List (Int × List Int)) (src dst : Int) : List (Int × List Int) :=
  match adj.lookup src with
  | none => adj ++ [(src, [dst])]
  | some _ => adj.map (fun p => if p.1 = src then (p.1, p.2 ++ [dst]) else p)

/-- `addEdge(from, to)`. -/
def addEdge (g : Graph) (src dst : Int) : Graph :=
  let g₁ := (g.ensureNode_ src).ensureNode_ dst
  { g₁ with adj_ := pushBack g₁.adj_ src dst }

/-- The graph after `addEdge` on each pair of the list, in order, from an empty graph. -/
def build (es : List (Int × Int)) : Graph :=
  es.foldl (fun g e => g.addEdge e.1 e.2) empty

/-- An edge of the graph: `v` is in the vector that `adj_.find(u)` yields. -/
def Edge (g : Graph) (u v : Int) : Prop :=
  ∃ ns, g.adj_.lookup u = some ns ∧ v ∈ ns

/-- Every vertex that occurs in a vector of neighbours. -/
def targets (g : Graph) : List Int :=
  g.adj_.foldr (fun p r => p.2 ++ r) []

end Graph

/-- `class BFSIterator`: the graph it refers to, the queue `q_`, the set
`discovered_`, and the one-element buffer `buffered_`, `value_`. -/
structure BFSIterator where
  g_ : Graph
  q_ : List Int
  discovered_ : List Int
  buffered_ : Bool
  value_ : Int

namespace BFSIterator

/-- The loop of `prepare_` over the neighbours: a neighbour that
`discovered_.insert` reports as new is pushed on the queue. -/
def visit (q discovered : List Int) : List Int → List Int × List Int
  | [] => (q, discovered)
  | nei :: rest =>
    if nei ∈ discovered then visit q discovered rest
    else visit (q ++ [nei]) (nei :: discovered) rest

/-- `prepare_()`: with an empty buffer and a non-empty queue, pop the front
vertex, discover its neighbours and buffer it. -/
def prepare_ (it : BFSIterator) : BFSIterator :=
  if it.buffered_ then it
  else
    match it.q_ with
    | [] => it
    | v :: q =>
      let r := match it.g_.adj_.lookup v with
        | some ns => visit q it.discovered_ ns
        | none => (q, it.discovered_)
      { it with q_ := r.1, discovered_ := r.2, value_ := v, buffered_ := true }

/-- The constructor `BFSIterator(g, start)`. -/
def new (g : Graph) (start : Int) : BFSIterator :=
  { g_ := g.ensureNode_ start, q_ := [start], discovered_ := [start],
    buffered_ := false, value_ := 0 }

/-- `hasNext()`: the answer and the iterator afterwards. -/
def hasNext (it : BFSIterator) : Bool × BFSIterator :=
  (it.prepare_.buffered_, it.prepare_)

/-- `next()`: the value and the iterator afterwards, or `std::out_of_range`. -/
def next (it : BFSIterator) : Except String (Int × BFSIterator) :=
  if it.prepare_.buffered_ then
    .ok (it.prepare_.value_, { it.prepare_ with buffered_ := false })
  else .error "Iterator exhausted"

/-- The loop `while (it->hasNext()) std::cout << it->next()` of `main`, run for
at most `fuel` rounds: the values printed, `none` when the rounds run out before
`hasNext()` answers `false`. -/
def drain : Nat → BFSIterator → Option (Except String (List Int))
  | 0, _ => none
  | fuel + 1, it =>
    if (hasNext it).1 then
      match next (hasNext it).2 with
      | .ok (v, it₂) => (drain fuel it₂).map (fun r => r.map (fun out => v :: out))
      | .error m => some (.error m)
    else some (.ok [])

/-- The state of a traversal from `s` along the edges `E`, with `acc` the
vertices handed out so far: the handed-out and the queued vertices are distinct
and are exactly the discovered ones, every neighbour of a handed-out vertex is
discovered, every discovered vertex can be reached from `s`, and `s` comes first. -/
def Inv (E : Int → Int → Prop) (s : Int) (acc q discovered : List Int) : Prop :=
  (acc ++ q).Nodup
  ∧ (∀ x, x ∈ discovered ↔ x ∈ acc ∨ x ∈ q)
  ∧ (∀ u ∈ acc, ∀ v, E u v → v ∈ discovered)
  ∧ (∀ x ∈ discovered, Relation.ReflTransGen E s x)
  ∧ (acc ++ q).head? = some s

end BFSIterator

namespace Expression

variable {α : Type}

/-! ## Auxiliary facts -/

theorem bind_eq_ok {β γ : Type} (r : Except String β) (f : β → Except String γ) (c : γ) :
    (r >>= f) = .ok c ↔ ∃ a, r = .ok a ∧ f a = .ok c := by
  cases r <;> simp [bind, Except.bind]

theorem bind_eq_error {β γ : Type} (r : Except String β) (f : β → Except String γ)
    (m : String) :
    (r >>= f) = .error m ↔ r = .error m ∨ ∃ a, r = .ok a ∧ f a = .error m := by
  cases r <;> simp [bind, Except.bind]

theorem pure_eq_ok {β : Type} (a c : β) :
    (pure a : Except String β) = .ok c ↔ a = c := by
  simp [pure, Except.pure]

theorem pure_ne_error {β : Type} (a : β) (m : String) :
    (pure a : Except String β) ≠ .error m := by
  simp [pure, Except.pure]

theorem mem_subexpressions_self (e : Expression α) : e ∈ subexpressions e := by
  cases e <;> simp [subexpressions]

theorem constExponents_Constant (v : α) : ConstExponents (Constant v) := by
  intro b ex h
  simp [subexpressions] at h

theorem constExponents_Variable : ConstExponents (Variable : Expression α) := by
  intro b ex h
  simp [subexpressions] at h

theorem constExponents_Add (l r : Expression α) :
    ConstExponents (Add l r) ↔ ConstExponents l ∧ ConstExponents r := by
  simp only [ConstExponents, subexpressions, List.mem_cons, List.mem_append]
  constructor
  · intro h
    exact ⟨fun b ex hm => h b ex (Or.inr (Or.inl hm)), fun b ex hm => h b ex (Or.inr (Or.inr hm))⟩
  · rintro ⟨hl, hr⟩ b ex (h | h | h)
    · cases h
    · exact hl b ex h
    · exact hr b ex h

theorem constExponents_Subtract (l r : Expression α) :
    ConstExponents (Subtract l r) ↔ ConstExponents l ∧ ConstExponents r := by
  simp only [ConstExponents, subexpressions, List.mem_cons, List.mem_append]
  constructor
  · intro h
    exact ⟨fun b ex hm => h b ex (Or.inr (Or.inl hm)), fun b ex hm => h b ex (Or.inr (Or.inr hm))⟩
  · rintro ⟨hl, hr⟩ b ex (h | h | h)
    · cases h
    · exact hl b ex h
    · exact hr b ex h

theorem constExponents_Multiply (l r : Expression α) :
    ConstExponents (Multiply l r) ↔ ConstExponents l ∧ ConstExponents r := by
  simp only [ConstExponents, subexpressions, List.mem_cons, List.mem_append]
  constructor
  · intro h
    exact ⟨fun b ex hm => h b ex (Or.inr (Or.inl hm)), fun b ex hm => h b ex (Or.inr (Or.inr hm))⟩
  · rintro ⟨hl, hr⟩ b ex (h | h | h)
    · cases h
    · exact hl b ex h
    · exact hr b ex h

theorem constExponents_Divide (l r : Expression α) :
    ConstExponents (Divide l r) ↔ ConstExponents l ∧ ConstExponents r := by
  simp only [ConstExponents, subexpressions, List.mem_cons, List.mem_append]
  constructor
  · intro h
    exact ⟨fun b ex hm => h b ex (Or.inr (Or.inl hm)), fun b ex hm => h b ex (Or.inr (Or.inr hm))⟩
  · rintro ⟨hl, hr⟩ b ex (h | h | h)
    · cases h
    · exact hl b ex h
    · exact hr b ex h

theorem constExponents_Power (l r : Expression α) :
    ConstExponents (Power l r) ↔ (∃ v, r = Constant v) ∧ ConstExponents l := by
  simp only [ConstExponents, subexpressions, List.mem_cons, List.mem_append]
  constructor
  · intro h
    exact ⟨h l r (Or.inl rfl), fun b ex hm => h b ex (Or.inr (Or.inl hm))⟩
  · rintro ⟨⟨v, rfl⟩, hl⟩ b ex (h | h | h)
    · cases h
      exact ⟨v, rfl⟩
    · exact hl b ex h
    · simp [subexpressions] at h

theorem constExponents_Cos (a : Expression α) :
    ConstExponents (Cos a) ↔ ConstExponents a := by
  simp only [ConstExponents, subexpressions, List.mem_cons]
  constructor
  · intro h b ex hm
    exact h b ex (Or.inr hm)
  · rintro ha b ex (h | h)
    · cases h
    · exact ha b ex h

theorem constExponents_Sin (a : Expression α) :
    ConstExponents (Sin a) ↔ ConstExponents a := by
  simp only [ConstExponents, subexpressions, List.mem_cons]
  constructor
  · intro h b ex hm
    exact h b ex (Or.inr hm)
  · rintro ha b ex (h | h)
    · cases h
    · exact ha b ex h

/-- `derivative` succeeds exactly on the expressions all of whose `Power` nodes
have a literal `Constant` exponent. -/
theorem derivative_ok_iff (S : Scalar α) (e : Expression α) :
    (∃ d, derivative S e = .ok d) ↔ ConstExponents e := by
  induction e with
  | Constant v => simp [derivative, constExponents_Constant]
  | Variable => simp [derivative, constExponents_Variable]
  | Add l r ihl ihr =>
    rw [constExponents_Add, ← ihl, ← ihr]
    simp only [derivative, bind_eq_ok, pure_eq_ok]
    constructor
    · rintro ⟨d, dl, hl, dr, hr, -⟩
      exact ⟨⟨dl, hl⟩, ⟨dr, hr⟩⟩
    · rintro ⟨⟨dl, hl⟩, ⟨dr, hr⟩⟩
      exact ⟨_, dl, hl, dr, hr, rfl⟩
  | Subtract l r ihl ihr =>
    rw [constExponents_Subtract, ← ihl, ← ihr]
    simp only [derivative, bind_eq_ok, pure_eq_ok]
    constructor
    · rintro ⟨d, dl, hl, dr, hr, -⟩
      exact ⟨⟨dl, hl⟩, ⟨dr, hr⟩⟩
    · rintro ⟨⟨dl, hl⟩, ⟨dr, hr⟩⟩
      exact ⟨_, dl, hl, dr, hr, rfl⟩
  | Multiply l r ihl ihr =>
    rw [constExponents_Multiply, ← ihl, ← ihr]
    simp only [derivative, bind_eq_ok, pure_eq_ok]
    constructor
    · rintro ⟨d, dl, hl, dr, hr, -⟩
      exact ⟨⟨dl, hl⟩, ⟨dr, hr⟩⟩
    · rintro ⟨⟨dl, hl⟩, ⟨dr, hr⟩⟩
      exact ⟨_, dl, hl, dr, hr, rfl⟩
  | Divide l r ihl ihr =>
    rw [constExponents_Divide, ← ihl, ← ihr]
    simp only [derivative, bind_eq_ok, pure_eq_ok]
    constructor
    · rintro ⟨d, dl, hl, dr, hr, -⟩
      exact ⟨⟨dl, hl⟩, ⟨dr, hr⟩⟩
    · rintro ⟨⟨dl, hl⟩, ⟨dr, hr⟩⟩
      exact ⟨_, dl, hl, dr, hr, rfl⟩
  | Power l r ihl _ =>
    rw [constExponents_Power, ← ihl]
    cases r with
    | Constant n =>
      simp only [derivative, isConstant, bind_eq_ok, pure_eq_ok]
      constructor
      · rintro ⟨d, dl, hl, -⟩
        exact ⟨⟨n, rfl⟩, ⟨dl, hl⟩⟩
      · rintro ⟨-, ⟨dl, hl⟩⟩
        exact ⟨_, dl, hl, rfl⟩
    | _ => simp [derivative, isConstant]
  | Cos a iha =>
    rw [constExponents_Cos, ← iha]
    simp only [derivative, bind_eq_ok, pure_eq_ok]
    constructor
    · rintro ⟨d, da, ha, -⟩
      exact ⟨da, ha⟩
    · rintro ⟨da, ha⟩
      exact ⟨_, da, ha, rfl⟩
  | Sin a iha =>
    rw [constExponents_Sin, ← iha]
    simp only [derivative, bind_eq_ok, pure_eq_ok]
    constructor
    · rintro ⟨d, da, ha, -⟩
      exact ⟨da, ha⟩
    · rintro ⟨da, ha⟩
      exact ⟨_, da, ha, rfl⟩

/-- The only error `derivative` returns is the one of `Power::derivative`. -/
theorem derivative_error_eq (S : Scalar α) (e : Expression α) (m : String)
    (h : derivative S e = .error m) : m = unsupportedExponent := by
  induction e with
  | Constant v => simp [derivative] at h
  | Variable => simp [derivative] at h
  | Add l r ihl ihr | Subtract l r ihl ihr | Multiply l r ihl ihr | Divide l r ihl ihr =>
    simp only [derivative, bind_eq_error, pure_ne_error, and_false, exists_false, or_false] at h
    rcases h with h | ⟨dl, -, h⟩
    · exact ihl h
    · exact ihr h
  | Power l r ihl _ =>
    cases r with
    | Constant n =>
      simp only [derivative, isConstant, bind_eq_error, pure_ne_error, and_false, exists_false,
        or_false] at h
      exact ihl h
    | _ =>
      simp only [derivative, isConstant, Except.error.injEq] at h
      exact h.symm
  | Cos a iha | Sin a iha =>
    simp only [derivative, bind_eq_error, pure_ne_error, and_false, exists_false, or_false] at h
    exact iha h

/-- The result of `derivative` has only literal `Constant` exponents: the `Power`
nodes it reuses come from the receiver, the ones it builds have the exponents
`Constant(n - 1)` and `Constant(2)`. -/
theorem derivative_constExponents (S : Scalar α) (e d : Expression α)
    (h : derivative S e = .ok d) : ConstExponents d := by
  have hce : ConstExponents e := (derivative_ok_iff S e).1 ⟨d, h⟩
  induction e generalizing d with
  | Constant v =>
    simp only [derivative, Except.ok.injEq] at h
    subst h
    exact constExponents_Constant _
  | Variable =>
    simp only [derivative, Except.ok.injEq] at h
    subst h
    exact constExponents_Constant _
  | Add l r ihl ihr =>
    simp only [derivative, bind_eq_ok, pure_eq_ok] at h
    obtain ⟨dl, hl, dr, hr, rfl⟩ := h
    rw [constExponents_Add] at hce ⊢
    exact ⟨ihl dl hl hce.1, ihr dr hr hce.2⟩
  | Subtract l r ihl ihr =>
    simp only [derivative, bind_eq_ok, pure_eq_ok] at h
    obtain ⟨dl, hl, dr, hr, rfl⟩ := h
    rw [constExponents_Subtract] at hce ⊢
    exact ⟨ihl dl hl hce.1, ihr dr hr hce.2⟩
  | Multiply l r ihl ihr =>
    simp only [derivative, bind_eq_ok, pure_eq_ok] at h
    obtain ⟨dl, hl, dr, hr, rfl⟩ := h
    rw [constExponents_Multiply] at hce
    rw [constExponents_Add, constExponents_Multiply, constExponents_Multiply]
    exact ⟨⟨ihl dl hl hce.1, hce.2⟩, hce.1, ihr dr hr hce.2⟩
  | Divide l r ihl ihr =>
    simp only [derivative, bind_eq_ok, pure_eq_ok] at h
    obtain ⟨dl, hl, dr, hr, rfl⟩ := h
    rw [constExponents_Divide] at hce
    rw [constExponents_Divide, constExponents_Subtract, constExponents_Multiply,
      constExponents_Multiply, constExponents_Power]
    exact ⟨⟨⟨ihl dl hl hce.1, hce.2⟩, hce.1, ihr dr hr hce.2⟩, ⟨_, rfl⟩, hce.2⟩
  | Power l r ihl _ =>
    rw [constExponents_Power] at hce
    obtain ⟨⟨n, rfl⟩, hcl⟩ := hce
    simp only [derivative, isConstant, bind_eq_ok, pure_eq_ok] at h
    obtain ⟨dl, hl, rfl⟩ := h
    rw [constExponents_Multiply, constExponents_Multiply, constExponents_Power]
    exact ⟨⟨constExponents_Constant _, ⟨_, rfl⟩, hcl⟩, ihl dl hl hcl⟩
  | Cos a iha =>
    simp only [derivative, bind_eq_ok, pure_eq_ok] at h
    obtain ⟨da, ha, rfl⟩ := h
    rw [constExponents_Cos] at hce
    rw [constExponents_Multiply, constExponents_Multiply, constExponents_Sin]
    exact ⟨⟨constExponents_Constant _, hce⟩, iha da ha hce⟩
  | Sin a iha =>
    simp only [derivative, bind_eq_ok, pure_eq_ok] at h
    obtain ⟨da, ha, rfl⟩ := h
    rw [constExponents_Sin] at hce
    rw [constExponents_Multiply, constExponents_Cos]
    exact ⟨hce, iha da ha hce⟩

/-- Every iterate of `derivative` on an expression with literal exponents
succeeds, and its result again has literal exponents. -/
theorem nthDerivative_ok (S : Scalar α) (e : Expression α) (hce : ConstExponents e)
    (n : Nat) : ∃ dn, nthDerivative S n e = .ok dn ∧ ConstExponents dn := by
  induction n with
  | zero => exact ⟨e, rfl, hce⟩
  | succ k ih =>
    obtain ⟨dk, hk, hck⟩ := ih
    obtain ⟨d, hd⟩ := (derivative_ok_iff S dk).2 hck
    refine ⟨d, ?_, derivative_constExponents S dk d hd⟩
    simp only [nthDerivative, bind_eq_ok]
    exact ⟨dk, hk, hd⟩

/-- Over the exact reals, the value of the `derivative` tree at `x` is the
derivative at `x` of the function that `evaluate` computes, wherever no divisor
vanishes and every `Power` has a positive base or a positive integer exponent. -/
theorem hasDerivAt_evaluate (e d : Expression ℝ) (x : ℝ)
    (hd : derivative Scalar.real e = .ok d)
    (hdiv : ∀ l r, Divide l r ∈ subexpressions e → evaluate Scalar.real r x ≠ 0)
    (hpow : ∀ b ex, Power b ex ∈ subexpressions e →
      0 < evaluate Scalar.real b x ∨ ∃ k : ℕ, 0 < k ∧ ex = Constant (k : ℝ)) :
    HasDerivAt (fun t => evaluate Scalar.real e t) (evaluate Scalar.real d x) x := by
  induction e generalizing d with
  | Constant v =>
    simp only [derivative, Except.ok.injEq] at hd
    subst hd
    exact hasDerivAt_const x v
  | Variable =>
    simp only [derivative, Except.ok.injEq] at hd
    subst hd
    exact hasDerivAt_id x
  | Add l r ihl ihr =>
    simp only [derivative, bind_eq_ok, pure_eq_ok] at hd
    obtain ⟨dl, hl, dr, hr, rfl⟩ := hd
    have h1 := ihl dl hl (fun a b hm => hdiv a b (by simp [subexpressions, hm]))
      (fun a b hm => hpow a b (by simp [subexpressions, hm]))
    have h2 := ihr dr hr (fun a b hm => hdiv a b (by simp [subexpressions, hm]))
      (fun a b hm => hpow a b (by simp [subexpressions, hm]))
    exact h1.add h2
  | Subtract l r ihl ihr =>
    simp only [derivative, bind_eq_ok, pure_eq_ok] at hd
    obtain ⟨dl, hl, dr, hr, rfl⟩ := hd
    have h1 := ihl dl hl (fun a b hm => hdiv a b (by simp [subexpressions, hm]))
      (fun a b hm => hpow a b (by simp [subexpressions, hm]))
    have h2 := ihr dr hr (fun a b hm => hdiv a b (by simp [subexpressions, hm]))
      (fun a b hm => hpow a b (by simp [subexpressions, hm]))
    exact h1.sub h2
  | Multiply l r ihl ihr =>
    simp only [derivative, bind_eq_ok, pure_eq_ok] at hd
    obtain ⟨dl, hl, dr, hr, rfl⟩ := hd
    have h1 := ihl dl hl (fun a b hm => hdiv a b (by simp [subexpressions, hm]))
      (fun a b hm => hpow a b (by simp [subexpressions, hm]))
    have h2 := ihr dr hr (fun a b hm => hdiv a b (by simp [subexpressions, hm]))
      (fun a b hm => hpow a b (by simp [subexpressions, hm]))
    exact h1.mul h2
  | Power l r ihl _ =>
    cases r with
    | Constant n =>
      simp only [derivative, isConstant, bind_eq_ok, pure_eq_ok] at hd
      obtain ⟨dl, hl, rfl⟩ := hd
      have h1 := ihl dl hl (fun a b hm => hdiv a b (by simp [subexpressions, hm]))
        (fun a b hm => hpow a b (by simp [subexpressions, hm]))
      have hcond : evaluate Scalar.real l x ≠ 0 ∨ 1 ≤ n := by
        rcases hpow l (Constant n) (mem_subexpressions_self _) with hpos | ⟨k, hk, hkn⟩
        · exact Or.inl (ne_of_gt hpos)
        · right
          simp only [Constant.injEq] at hkn
          subst hkn
          exact_mod_cast hk
      have h3 := h1.rpow_const hcond
      show HasDerivAt (fun t => evaluate Scalar.real l t ^ n)
        (n * evaluate Scalar.real l x ^ (n - 1) * evaluate Scalar.real dl x) x
      convert h3 using 1
      ring
    | _ => simp [derivative, isConstant] at hd
  | Divide l r ihl ihr =>
    simp only [derivative, bind_eq_ok, pure_eq_ok] at hd
    obtain ⟨dl, hl, dr, hr, rfl⟩ := hd
    have h1 := ihl dl hl (fun a b hm => hdiv a b (by simp [subexpressions, hm]))
      (fun a b hm => hpow a b (by simp [subexpressions, hm]))
    have h2 := ihr dr hr (fun a b hm => hdiv a b (by simp [subexpressions, hm]))
      (fun a b hm => hpow a b (by simp [subexpressions, hm]))
    have hne : evaluate Scalar.real r x ≠ 0 := hdiv l r (mem_subexpressions_self _)
    show HasDerivAt (fun t => evaluate Scalar.real l t / evaluate Scalar.real r t)
      ((evaluate Scalar.real dl x * evaluate Scalar.real r x
          - evaluate Scalar.real l x * evaluate Scalar.real dr x)
        / evaluate Scalar.real r x ^ (2 : ℝ)) x
    rw [Real.rpow_two]
    exact h1.div h2 hne
  | Cos a iha =>
    simp only [derivative, bind_eq_ok, pure_eq_ok] at hd
    obtain ⟨da, ha, rfl⟩ := hd
    have h1 := iha da ha (fun a b hm => hdiv a b (by simp [subexpressions, hm]))
      (fun a b hm => hpow a b (by simp [subexpressions, hm]))
    show HasDerivAt (fun t => Real.cos (evaluate Scalar.real a t))
      (-1 * Real.sin (evaluate Scalar.real a x) * evaluate Scalar.real da x) x
    convert h1.cos using 1
    ring
  | Sin a iha =>
    simp only [derivative, bind_eq_ok, pure_eq_ok] at hd
    obtain ⟨da, ha, rfl⟩ := hd
    have h1 := iha da ha (fun a b hm => hdiv a b (by simp [subexpressions, hm]))
      (fun a b hm => hpow a b (by simp [subexpressions, hm]))
    exact h1.sin

/-- The function `evaluate` is the one and only relation satisfying the table. -/
theorem denotes_evaluate (S : Scalar α) (x : α) (e : Expression α) :
    Denotes S x e (evaluate S e x) := by
  induction e with
  | Constant v => exact Denotes.ofConstant v
  | Variable => exact Denotes.ofVariable
  | Add l r ihl ihr => exact Denotes.ofAdd ihl ihr
  | Subtract l r ihl ihr => exact Denotes.ofSubtract ihl ihr
  | Multiply l r ihl ihr => exact Denotes.ofMultiply ihl ihr
  | Power l r ihl ihr => exact Denotes.ofPower ihl ihr
  | Divide l r ihl ihr => exact Denotes.ofDivide ihl ihr
  | Cos a iha => exact Denotes.ofCos iha
  | Sin a iha => exact Denotes.ofSin iha

theorem denotes_unique (S : Scalar α) (x : α) (e : Expression α) (v : α)
    (h : Denotes S x e v) : v = evaluate S e x := by
  induction h with
  | ofConstant v => rfl
  | ofVariable => rfl
  | ofAdd _ _ ihl ihr => rw [ihl, ihr]; rfl
  | ofSubtract _ _ ihl ihr => rw [ihl, ihr]; rfl
  | ofMultiply _ _ ihl ihr => rw [ihl, ihr]; rfl
  | ofDivide _ _ ihl ihr => rw [ihl, ihr]; rfl
  | ofPower _ _ ihl ihr => rw [ihl, ihr]; rfl
  | ofSin _ ih => rw [ih]; rfl
  | ofCos _ ih => rw [ih]; rfl

/-- A non-negative integer exponent is in the domain of `std::pow` for every base. -/
theorem powDefined_natCast (b : ℝ) (n : ℕ) : PowDefined b (n : ℝ) := by
  rcases lt_trichotomy b 0 with h | h | h
  · exact Or.inr (Or.inr ⟨h, (n : ℤ), by push_cast; rfl⟩)
  · exact Or.inr (Or.inl ⟨h, Nat.cast_nonneg n⟩)
  · exact Or.inl h

theorem powDefined_one (b : ℝ) : PowDefined b 1 := by
  have h := powDefined_natCast b 1
  simpa using h

theorem powDefined_two (b : ℝ) : PowDefined b 2 := by
  have h := powDefined_natCast b 2
  simpa using h

theorem evaluateExact_Add {l r : Expression ℝ} {x a b : ℝ}
    (hl : evaluateExact l x = some a) (hr : evaluateExact r x = some b) :
    evaluateExact (Add l r) x = some (a + b) := by
  simp [evaluateExact, hl, hr]

theorem evaluateExact_Subtract {l r : Expression ℝ} {x a b : ℝ}
    (hl : evaluateExact l x = some a) (hr : evaluateExact r x = some b) :
    evaluateExact (Subtract l r) x = some (a - b) := by
  simp [evaluateExact, hl, hr]

theorem evaluateExact_Multiply {l r : Expression ℝ} {x a b : ℝ}
    (hl : evaluateExact l x = some a) (hr : evaluateExact r x = some b) :
    evaluateExact (Multiply l r) x = some (a * b) := by
  simp [evaluateExact, hl, hr]

theorem evaluateExact_Power {l r : Expression ℝ} {x a b : ℝ}
    (hl : evaluateExact l x = some a) (hr : evaluateExact r x = some b)
    (hp : PowDefined a b) :
    evaluateExact (Power l r) x = some (a ^ b) := by
  simp [evaluateExact, hl, hr, hp]

theorem evaluateExact_Power_undefined {l r : Expression ℝ} {x a b : ℝ}
    (hl : evaluateExact l x = some a) (hr : evaluateExact r x = some b)
    (hp : ¬ PowDefined a b) :
    evaluateExact (Power l r) x = none := by
  simp [evaluateExact, hl, hr, hp]

theorem evaluateExact_Divide {l r : Expression ℝ} {x a b : ℝ}
    (hl : evaluateExact l x = some a) (hr : evaluateExact r x = some b) (hb : b ≠ 0) :
    evaluateExact (Divide l r) x = some (a / b) := by
  simp [evaluateExact, hl, hr, hb]

theorem evaluateExact_Cos {e : Expression ℝ} {x a : ℝ} (he : evaluateExact e x = some a) :
    evaluateExact (Cos e) x = some (Real.cos a) := by
  simp [evaluateExact, he]

theorem evaluateExact_Sin {e : Expression ℝ} {x a : ℝ} (he : evaluateExact e x = some a) :
    evaluateExact (Sin e) x = some (Real.sin a) := by
  simp [evaluateExact, he]

theorem evaluateExact_Multiply_none_left {l r : Expression ℝ} {x : ℝ}
    (hl : evaluateExact l x = none) : evaluateExact (Multiply l r) x = none := by
  simp [evaluateExact, hl]

theorem evaluateExact_Multiply_none_right {l r : Expression ℝ} {x : ℝ}
    (hr : evaluateExact r x = none) : evaluateExact (Multiply l r) x = none := by
  simp [evaluateExact, hr]

theorem evaluateExact_Constant (v x : ℝ) : evaluateExact (Constant v) x = some v := rfl

theorem evaluateExact_Variable (x : ℝ) : evaluateExact Variable x = some x := rfl

/-- Where `evaluateExact` has a value, it is the value of `evaluate` over the reals. -/
theorem evaluateExact_eq_evaluate (e : Expression ℝ) (x v : ℝ)
    (h : evaluateExact e x = some v) : evaluate Scalar.real e x = v := by
  induction e generalizing v with
  | Constant c =>
    simp only [evaluateExact, Option.some.injEq] at h
    exact h
  | Variable =>
    simp only [evaluateExact, Option.some.injEq] at h
    exact h
  | Add l r ihl ihr =>
    simp only [evaluateExact, Option.bind_eq_bind, Option.bind_eq_some, Option.pure_def,
      Option.some.injEq] at h
    obtain ⟨a, ha, b, hb, rfl⟩ := h
    show evaluate Scalar.real l x + evaluate Scalar.real r x = a + b
    rw [ihl a ha, ihr b hb]
  | Subtract l r ihl ihr =>
    simp only [evaluateExact, Option.bind_eq_bind, Option.bind_eq_some, Option.pure_def,
      Option.some.injEq] at h
    obtain ⟨a, ha, b, hb, rfl⟩ := h
    show evaluate Scalar.real l x - evaluate Scalar.real r x = a - b
    rw [ihl a ha, ihr b hb]
  | Multiply l r ihl ihr =>
    simp only [evaluateExact, Option.bind_eq_bind, Option.bind_eq_some, Option.pure_def,
      Option.some.injEq] at h
    obtain ⟨a, ha, b, hb, rfl⟩ := h
    show evaluate Scalar.real l x * evaluate Scalar.real r x = a * b
    rw [ihl a ha, ihr b hb]
  | Power l r ihl ihr =>
    simp only [evaluateExact, Option.bind_eq_bind, Option.bind_eq_some, Option.pure_def] at h
    obtain ⟨a, ha, b, hb, h⟩ := h
    split at h
    · simp only [Option.some.injEq] at h
      subst h
      show evaluate Scalar.real l x ^ evaluate Scalar.real r x = a ^ b
      rw [ihl a ha, ihr b hb]
    · cases h
  | Divide l r ihl ihr =>
    simp only [evaluateExact, Option.bind_eq_bind, Option.bind_eq_some, Option.pure_def] at h
    obtain ⟨a, ha, b, hb, h⟩ := h
    split at h
    · cases h
    · simp only [Option.some.injEq] at h
      subst h
      show evaluate Scalar.real l x / evaluate Scalar.real r x = a / b
      rw [ihl a ha, ihr b hb]
  | Cos e ih =>
    simp only [evaluateExact, Option.bind_eq_bind, Option.bind_eq_some, Option.pure_def,
      Option.some.injEq] at h
    obtain ⟨a, ha, rfl⟩ := h
    show Real.cos (evaluate Scalar.real e x) = Real.cos a
    rw [ih a ha]
  | Sin e ih =>
    simp only [evaluateExact, Option.bind_eq_bind, Option.bind_eq_some, Option.pure_def,
      Option.some.injEq] at h
    obtain ⟨a, ha, rfl⟩ := h
    show Real.sin (evaluate Scalar.real e x) = Real.sin a
    rw [ih a ha]

/-- On a variable-free expression whose divisors and `Power` bases are non-zero
and whose negative `Power` bases carry integer exponents, the expression has a
real value and its derivative tree has the value `0`. -/
theorem evaluateExact_derivative_variable_free (e d : Expression ℝ) (x : ℝ)
    (hvar : Variable ∉ subexpressions e)
    (hd : derivative Scalar.real e = .ok d)
    (hdiv : ∀ l r, Divide l r ∈ subexpressions e → evaluateExact r x ≠ some 0)
    (hpow : ∀ b ex, Power b ex ∈ subexpressions e → evaluateExact b x ≠ some 0)
    (hneg : ∀ b ex v, Power b ex ∈ subexpressions e → evaluateExact b x = some v → v < 0 →
      ∃ k : ℤ, ex = Constant (k : ℝ)) :
    (∃ v, evaluateExact e x = some v) ∧ evaluateExact d x = some 0 := by
  induction e generalizing d with
  | Constant c =>
    simp only [derivative, Except.ok.injEq] at hd
    subst hd
    exact ⟨⟨c, rfl⟩, rfl⟩
  | Variable => exact absurd (mem_subexpressions_self _) hvar
  | Add l r ihl ihr =>
    simp only [derivative, bind_eq_ok, pure_eq_ok] at hd
    obtain ⟨dl, hl, dr, hr, rfl⟩ := hd
    obtain ⟨⟨a, ha⟩, hda⟩ := ihl dl (fun hm => hvar (by simp [subexpressions, hm])) hl
      (fun p q hm => hdiv p q (by simp [subexpressions, hm]))
      (fun p q hm => hpow p q (by simp [subexpressions, hm]))
      (fun p q v hm => hneg p q v (by simp [subexpressions, hm]))
    obtain ⟨⟨b, hb⟩, hdb⟩ := ihr dr (fun hm => hvar (by simp [subexpressions, hm])) hr
      (fun p q hm => hdiv p q (by simp [subexpressions, hm]))
      (fun p q hm => hpow p q (by simp [subexpressions, hm]))
      (fun p q v hm => hneg p q v (by simp [subexpressions, hm]))
    refine ⟨⟨a + b, evaluateExact_Add ha hb⟩, ?_⟩
    have h := evaluateExact_Add hda hdb
    simpa using h
  | Subtract l r ihl ihr =>
    simp only [derivative, bind_eq_ok, pure_eq_ok] at hd
    obtain ⟨dl, hl, dr, hr, rfl⟩ := hd
    obtain ⟨⟨a, ha⟩, hda⟩ := ihl dl (fun hm => hvar (by simp [subexpressions, hm])) hl
      (fun p q hm => hdiv p q (by simp [subexpressions, hm]))
      (fun p q hm => hpow p q (by simp [subexpressions, hm]))
      (fun p q v hm => hneg p q v (by simp [subexpressions, hm]))
    obtain ⟨⟨b, hb⟩, hdb⟩ := ihr dr (fun hm => hvar (by simp [subexpressions, hm])) hr
      (fun p q hm => hdiv p q (by simp [subexpressions, hm]))
      (fun p q hm => hpow p q (by simp [subexpressions, hm]))
      (fun p q v hm => hneg p q v (by simp [subexpressions, hm]))
    refine ⟨⟨a - b, evaluateExact_Subtract ha hb⟩, ?_⟩
    have h := evaluateExact_Subtract hda hdb
    simpa using h
  | Multiply l r ihl ihr =>
    simp only [derivative, bind_eq_ok, pure_eq_ok] at hd
    obtain ⟨dl, hl, dr, hr, rfl⟩ := hd
    obtain ⟨⟨a, ha⟩, hda⟩ := ihl dl (fun hm => hvar (by simp [subexpressions, hm])) hl
      (fun p q hm => hdiv p q (by simp [subexpressions, hm]))
      (fun p q hm => hpow p q (by simp [subexpressions, hm]))
      (fun p q v hm => hneg p q v (by simp [subexpressions, hm]))
    obtain ⟨⟨b, hb⟩, hdb⟩ := ihr dr (fun hm => hvar (by simp [subexpressions, hm])) hr
      (fun p q hm => hdiv p q (by simp [subexpressions, hm]))
      (fun p q hm => hpow p q (by simp [subexpressions, hm]))
      (fun p q v hm => hneg p q v (by simp [subexpressions, hm]))
    refine ⟨⟨a * b, evaluateExact_Multiply ha hb⟩, ?_⟩
    have h := evaluateExact_Add (evaluateExact_Multiply hda hb) (evaluateExact_Multiply ha hdb)
    simpa using h
  | Power l r ihl _ =>
    cases r with
    | Constant n =>
      simp only [derivative, isConstant, bind_eq_ok, pure_eq_ok] at hd
      obtain ⟨dl, hl, rfl⟩ := hd
      obtain ⟨⟨a, ha⟩, hda⟩ := ihl dl (fun hm => hvar (by simp [subexpressions, hm])) hl
        (fun p q hm => hdiv p q (by simp [subexpressions, hm]))
        (fun p q hm => hpow p q (by simp [subexpressions, hm]))
        (fun p q v hm => hneg p q v (by simp [subexpressions, hm]))
      have hne : a ≠ 0 := by
        intro h0
        exact hpow l (Constant n) (mem_subexpressions_self _) (by rw [ha, h0])
      have hdef : PowDefined a n ∧ PowDefined a (n - 1) := by
        rcases lt_or_gt_of_ne hne with hlt | hgt
        · obtain ⟨k, hk⟩ := hneg l (Constant n) a (mem_subexpressions_self _) ha hlt
          simp only [Constant.injEq] at hk
          subst hk
          exact ⟨Or.inr (Or.inr ⟨hlt, k, rfl⟩),
            Or.inr (Or.inr ⟨hlt, k - 1, by push_cast; rfl⟩)⟩
        · exact ⟨Or.inl hgt, Or.inl hgt⟩
      refine ⟨⟨a ^ n, evaluateExact_Power ha (evaluateExact_Constant n x) hdef.1⟩, ?_⟩
      have h := evaluateExact_Multiply
        (evaluateExact_Multiply (evaluateExact_Constant n x)
          (evaluateExact_Power ha (evaluateExact_Constant (n - 1) x) hdef.2))
        hda
      simpa using h
    | _ => simp [derivative, isConstant] at hd
  | Divide l r ihl ihr =>
    simp only [derivative, bind_eq_ok, pure_eq_ok] at hd
    obtain ⟨dl, hl, dr, hr, rfl⟩ := hd
    obtain ⟨⟨a, ha⟩, hda⟩ := ihl dl (fun hm => hvar (by simp [subexpressions, hm])) hl
      (fun p q hm => hdiv p q (by simp [subexpressions, hm]))
      (fun p q hm => hpow p q (by simp [subexpressions, hm]))
      (fun p q v hm => hneg p q v (by simp [subexpressions, hm]))
    obtain ⟨⟨b, hb⟩, hdb⟩ := ihr dr (fun hm => hvar (by simp [subexpressions, hm])) hr
      (fun p q hm => hdiv p q (by simp [subexpressions, hm]))
      (fun p q hm => hpow p q (by simp [subexpressions, hm]))
      (fun p q v hm => hneg p q v (by simp [subexpressions, hm]))
    have hne : b ≠ 0 := by
      intro h0
      exact hdiv l r (mem_subexpressions_self _) (by rw [hb, h0])
    refine ⟨⟨a / b, evaluateExact_Divide ha hb hne⟩, ?_⟩
    have hsq : b ^ (2 : ℝ) ≠ 0 := by
      rw [Real.rpow_two]
      exact pow_ne_zero 2 hne
    have h := evaluateExact_Divide
      (evaluateExact_Subtract (evaluateExact_Multiply hda hb) (evaluateExact_Multiply ha hdb))
      (evaluateExact_Power hb (evaluateExact_Constant 2 x) (powDefined_two b)) hsq
    simpa using h
  | Cos e ih =>
    simp only [derivative, bind_eq_ok, pure_eq_ok] at hd
    obtain ⟨da, hda, rfl⟩ := hd
    obtain ⟨⟨a, ha⟩, hd0⟩ := ih da (fun hm => hvar (by simp [subexpressions, hm])) hda
      (fun p q hm => hdiv p q (by simp [subexpressions, hm]))
      (fun p q hm => hpow p q (by simp [subexpressions, hm]))
      (fun p q v hm => hneg p q v (by simp [subexpressions, hm]))
    refine ⟨⟨Real.cos a, evaluateExact_Cos ha⟩, ?_⟩
    have h := evaluateExact_Multiply
      (evaluateExact_Multiply (evaluateExact_Constant (-1) x) (evaluateExact_Sin ha)) hd0
    simpa using h
  | Sin e ih =>
    simp only [derivative, bind_eq_ok, pure_eq_ok] at hd
    obtain ⟨da, hda, rfl⟩ := hd
    obtain ⟨⟨a, ha⟩, hd0⟩ := ih da (fun hm => hvar (by simp [subexpressions, hm])) hda
      (fun p q hm => hdiv p q (by simp [subexpressions, hm]))
      (fun p q hm => hpow p q (by simp [subexpressions, hm]))
      (fun p q v hm => hneg p q v (by simp [subexpressions, hm]))
    refine ⟨⟨Real.sin a, evaluateExact_Sin ha⟩, ?_⟩
    have h := evaluateExact_Multiply (evaluateExact_Cos ha) hd0
    simpa using h

/-! ## Rendering determines the shape -/

theorem data_Variable (fmt : α → String) (s : List Char) :
    (toString fmt (Variable : Expression α)).data ++ s = 'x' :: s := by
  simp [toString]

theorem data_Add (fmt : α → String) (l r : Expression α) (s : List Char) :
    (toString fmt (Add l r)).data ++ s
      = '(' :: ((toString fmt l).data
          ++ ' ' :: '+' :: ' ' :: ((toString fmt r).data ++ ')' :: s)) := by
  simp [toString, String.data_append]

theorem data_Subtract (fmt : α → String) (l r : Expression α) (s : List Char) :
    (toString fmt (Subtract l r)).data ++ s
      = '(' :: ((toString fmt l).data
          ++ ' ' :: '-' :: ' ' :: ((toString fmt r).data ++ ')' :: s)) := by
  simp [toString, String.data_append]

theorem data_Multiply (fmt : α → String) (l r : Expression α) (s : List Char) :
    (toString fmt (Multiply l r)).data ++ s
      = '(' :: ((toString fmt l).data
          ++ ' ' :: '*' :: ' ' :: ((toString fmt r).data ++ ')' :: s)) := by
  simp [toString, String.data_append]

theorem data_Power (fmt : α → String) (l r : Expression α) (s : List Char) :
    (toString fmt (Power l r)).data ++ s
      = '(' :: ((toString fmt l).data
          ++ ' ' :: '^' :: ' ' :: ((toString fmt r).data ++ ')' :: s)) := by
  simp [toString, String.data_append]

theorem data_Divide (fmt : α → String) (l r : Expression α) (s : List Char) :
    (toString fmt (Divide l r)).data ++ s
      = '(' :: ((toString fmt l).data
          ++ ' ' :: '/' :: ' ' :: ((toString fmt r).data ++ ')' :: s)) := by
  simp [toString, String.data_append]

theorem data_Cos (fmt : α → String) (a : Expression α) (s : List Char) :
    (toString fmt (Cos a)).data ++ s
      = 'c' :: 'o' :: 's' :: '(' :: ((toString fmt a).data ++ ')' :: s) := by
  simp [toString, String.data_append]

theorem data_Sin (fmt : α → String) (a : Expression α) (s : List Char) :
    (toString fmt (Sin a)).data ++ s
      = 's' :: 'i' :: 'n' :: '(' :: ((toString fmt a).data ++ ')' :: s) := by
  simp [toString, String.data_append]

/-- Two texts without a space or a parenthesis, each followed by the end of the
string, a space or `)`, are equal when the two strings are. -/
theorem plain_append_unique (t₁ t₂ s₁ s₂ : List Char)
    (h₁ : ∀ c ∈ t₁, c ≠ ' ' ∧ c ≠ '(' ∧ c ≠ ')' ∧ c ≠ 'x')
    (h₂ : ∀ c ∈ t₂, c ≠ ' ' ∧ c ≠ '(' ∧ c ≠ ')' ∧ c ≠ 'x')
    (f₁ : ∀ c ∈ s₁.head?, c = ' ' ∨ c = ')')
    (f₂ : ∀ c ∈ s₂.head?, c = ' ' ∨ c = ')')
    (h : t₁ ++ s₁ = t₂ ++ s₂) : t₁ = t₂ ∧ s₁ = s₂ := by
  induction t₁ generalizing t₂ with
  | nil =>
    cases t₂ with
    | nil => exact ⟨rfl, by simpa using h⟩
    | cons c t =>
      exfalso
      simp only [List.nil_append, List.cons_append] at h
      subst h
      have hf := f₁ c (by simp)
      have hc := h₂ c (by simp)
      rcases hf with hf | hf
      · exact hc.1 hf
      · exact hc.2.2.1 hf
  | cons c t ih =>
    cases t₂ with
    | nil =>
      exfalso
      simp only [List.nil_append, List.cons_append] at h
      subst h
      have hf := f₂ c (by simp)
      have hc := h₁ c (by simp)
      rcases hf with hf | hf
      · exact hc.1 hf
      · exact hc.2.2.1 hf
    | cons d u =>
      simp only [List.cons_append, List.cons.injEq] at h
      obtain ⟨rfl, h⟩ := h
      obtain ⟨rfl, rfl⟩ := ih u (fun a ha => h₁ a (List.mem_cons_of_mem _ ha))
        (fun a ha => h₂ a (List.mem_cons_of_mem _ ha)) h
      exact ⟨rfl, rfl⟩

/-- The text of a constant followed by a space, `)` or the end cannot run into
`(` or `x` after letters only. -/
theorem plain_not_before_special (t s p rest : List Char) (c : Char)
    (ht : ∀ a ∈ t, a ≠ ' ' ∧ a ≠ '(' ∧ a ≠ ')' ∧ a ≠ 'x')
    (fs : ∀ a ∈ s.head?, a = ' ' ∨ a = ')')
    (hp : ∀ a ∈ p, a ≠ ' ' ∧ a ≠ ')')
    (hc : c = '(' ∨ c = 'x')
    (h : t ++ s = p ++ c :: rest) : False := by
  induction t generalizing p with
  | nil =>
    simp only [List.nil_append] at h
    subst h
    cases p with
    | nil =>
      have hf := fs c (by simp)
      rcases hc with rfl | rfl <;> simp at hf
    | cons a p =>
      have hf := fs a (by simp)
      have ha := hp a (by simp)
      rcases hf with hf | hf
      · exact ha.1 hf
      · exact ha.2 hf
  | cons b t ih =>
    cases p with
    | nil =>
      simp only [List.nil_append, List.cons_append, List.cons.injEq] at h
      have hb := ht b (by simp)
      rcases hc with rfl | rfl
      · exact hb.2.1 h.1
      · exact hb.2.2.2 h.1
    | cons a p =>
      simp only [List.cons_append, List.cons.injEq] at h
      exact ih p (fun a ha => ht a (List.mem_cons_of_mem _ ha))
        (fun a ha => hp a (List.mem_cons_of_mem _ ha)) h.2

/-- Only a `Constant` renders to a text that begins like the text of a constant. -/
theorem plain_prefix_constant (fmt : α → String) (e : Expression α) (t s₁ s₂ : List Char)
    (ht : ∀ a ∈ t, a ≠ ' ' ∧ a ≠ '(' ∧ a ≠ ')' ∧ a ≠ 'x')
    (f₁ : ∀ a ∈ s₁.head?, a = ' ' ∨ a = ')')
    (h : t ++ s₁ = (toString fmt e).data ++ s₂) : ∃ c, e = Constant c := by
  cases e with
  | Constant c => exact ⟨c, rfl⟩
  | Variable =>
    rw [data_Variable] at h
    exact (plain_not_before_special t s₁ [] s₂ 'x' ht f₁ (by simp) (Or.inr rfl) h).elim

  | Add l r =>
    rw [data_Add] at h
    exact (plain_not_before_special t s₁ [] _ '(' ht f₁ (by simp) (Or.inl rfl) h).elim

  | Subtract l r =>
    rw [data_Subtract] at h
    exact (plain_not_before_special t s₁ [] _ '(' ht f₁ (by simp) (Or.inl rfl) h).elim

  | Multiply l r =>
    rw [data_Multiply] at h
    exact (plain_not_before_special t s₁ [] _ '(' ht f₁ (by simp) (Or.inl rfl) h).elim

  | Power l r =>
    rw [data_Power] at h
    exact (plain_not_before_special t s₁ [] _ '(' ht f₁ (by simp) (Or.inl rfl) h).elim

  | Divide l r =>
    rw [data_Divide] at h
    exact (plain_not_before_special t s₁ [] _ '(' ht f₁ (by simp) (Or.inl rfl) h).elim

  | Cos a =>
    rw [data_Cos] at h
    exact (plain_not_before_special t s₁ ['c', 'o', 's'] _ '(' ht f₁ (by decide) (Or.inl rfl)
      h).elim
  | Sin a =>
    rw [data_Sin] at h
    exact (plain_not_before_special t s₁ ['s', 'i', 'n'] _ '(' ht f₁ (by decide) (Or.inl rfl)
      h).elim

/-- One step of reading a binary node: the left operands, the operators, the
right operands and what follows agree. -/
theorem binary_step (fmt : α → String) (l r l₂ r₂ : Expression α) (o₁ o₂ : Char)
    (s₁ s₂ : List Char)
    (ihl : ∀ (e₂ : Expression α) (u₁ u₂ : List Char),
      (∀ a ∈ u₁.head?, a = ' ' ∨ a = ')') → (∀ a ∈ u₂.head?, a = ' ' ∨ a = ')') →
      (toString fmt l).data ++ u₁ = (toString fmt e₂).data ++ u₂ →
      shape l = shape e₂ ∧ u₁ = u₂)
    (ihr : ∀ (e₂ : Expression α) (u₁ u₂ : List Char),
      (∀ a ∈ u₁.head?, a = ' ' ∨ a = ')') → (∀ a ∈ u₂.head?, a = ' ' ∨ a = ')') →
      (toString fmt r).data ++ u₁ = (toString fmt e₂).data ++ u₂ →
      shape r = shape e₂ ∧ u₁ = u₂)
    (h : '(' :: ((toString fmt l).data
          ++ ' ' :: o₁ :: ' ' :: ((toString fmt r).data ++ ')' :: s₁))
        = '(' :: ((toString fmt l₂).data
          ++ ' ' :: o₂ :: ' ' :: ((toString fmt r₂).data ++ ')' :: s₂))) :
    shape l = shape l₂ ∧ shape r = shape r₂ ∧ o₁ = o₂ ∧ s₁ = s₂ := by
  simp only [List.cons.injEq, true_and] at h
  obtain ⟨hl, ht⟩ := ihl l₂ _ _ (by simp) (by simp) h
  simp only [List.cons.injEq, true_and] at ht
  obtain ⟨ho, ht⟩ := ht
  obtain ⟨hr, ht⟩ := ihr r₂ _ _ (by simp) (by simp) ht
  simp only [List.cons.injEq, true_and] at ht
  exact ⟨hl, hr, ho, ht⟩

/-- A rendering followed by a space, `)` or the end of the string determines the
shape of the tree and where the rendering ends. -/
theorem toString_prefix_unique (fmt : α → String)
    (hfmt : ∀ v, ∀ c ∈ (fmt v).data, c ≠ ' ' ∧ c ≠ '(' ∧ c ≠ ')' ∧ c ≠ 'x')
    (e₁ : Expression α) :
    ∀ (e₂ : Expression α) (s₁ s₂ : List Char),
      (∀ a ∈ s₁.head?, a = ' ' ∨ a = ')') → (∀ a ∈ s₂.head?, a = ' ' ∨ a = ')') →
      (toString fmt e₁).data ++ s₁ = (toString fmt e₂).data ++ s₂ →
      shape e₁ = shape e₂ ∧ s₁ = s₂ := by
  induction e₁ with
  | Constant v =>
    intro e₂ s₁ s₂ f₁ f₂ h
    obtain ⟨c, rfl⟩ := plain_prefix_constant fmt e₂ (fmt v).data s₁ s₂ (hfmt v) f₁ h
    exact ⟨rfl, (plain_append_unique _ _ _ _ (hfmt v) (hfmt c) f₁ f₂ h).2⟩
  | Variable =>
    intro e₂ s₁ s₂ f₁ f₂ h
    cases e₂ with
    | Constant c =>
      obtain ⟨c₂, hc⟩ := plain_prefix_constant fmt Variable (fmt c).data s₂ s₁ (hfmt c) f₂ h.symm
      cases hc
    | Variable =>
      rw [data_Variable, data_Variable] at h
      exact ⟨rfl, by simpa using h⟩

    | Add l₂ r₂ =>
      rw [data_Variable, data_Add] at h
      simp at h

    | Subtract l₂ r₂ =>
      rw [data_Variable, data_Subtract] at h
      simp at h

    | Multiply l₂ r₂ =>
      rw [data_Variable, data_Multiply] at h
      simp at h

    | Power l₂ r₂ =>
      rw [data_Variable, data_Power] at h
      simp at h

    | Divide l₂ r₂ =>
      rw [data_Variable, data_Divide] at h
      simp at h

    | Cos a₂ =>
      rw [data_Variable, data_Cos] at h
      simp at h

    | Sin a₂ =>
      rw [data_Variable, data_Sin] at h
      simp at h

  | Add l r ihl ihr =>
    intro e₂ s₁ s₂ f₁ f₂ h
    cases e₂ with
    | Constant c =>
      obtain ⟨c₂, hc⟩ := plain_prefix_constant fmt (Add l r) (fmt c).data s₂ s₁ (hfmt c) f₂ h.symm
      cases hc
    | Variable =>
      rw [data_Add, data_Variable] at h
      simp at h

    | Add l₂ r₂ =>
      rw [data_Add, data_Add] at h
      obtain ⟨hl, hr, -, hs⟩ := binary_step fmt l r l₂ r₂ _ _ s₁ s₂ ihl ihr h
      exact ⟨by simp only [shape, hl, hr], hs⟩

    | Subtract l₂ r₂ =>
      rw [data_Add, data_Subtract] at h
      obtain ⟨-, -, ho, -⟩ := binary_step fmt l r l₂ r₂ _ _ s₁ s₂ ihl ihr h
      exact absurd ho (by decide)

    | Multiply l₂ r₂ =>
      rw [data_Add, data_Multiply] at h
      obtain ⟨-, -, ho, -⟩ := binary_step fmt l r l₂ r₂ _ _ s₁ s₂ ihl ihr h
      exact absurd ho (by decide)

    | Power l₂ r₂ =>
      rw [data_Add, data_Power] at h
      obtain ⟨-, -, ho, -⟩ := binary_step fmt l r l₂ r₂ _ _ s₁ s₂ ihl ihr h
      exact absurd ho (by decide)

    | Divide l₂ r₂ =>
      rw [data_Add, data_Divide] at h
      obtain ⟨-, -, ho, -⟩ := binary_step fmt l r l₂ r₂ _ _ s₁ s₂ ihl ihr h
      exact absurd ho (by decide)

    | Cos a₂ =>
      rw [data_Add, data_Cos] at h
      simp at h

    | Sin a₂ =>
      rw [data_Add, data_Sin] at h
      simp at h

  | Subtract l r ihl ihr =>
    intro e₂ s₁ s₂ f₁ f₂ h
    cases e₂ with
    | Constant c =>
      obtain ⟨c₂, hc⟩ := plain_prefix_constant fmt (Subtract l r) (fmt c).data s₂ s₁ (hfmt c) f₂ h.symm
      cases hc
    | Variable =>
      rw [data_Subtract, data_Variable] at h
      simp at h

    | Add l₂ r₂ =>
      rw [data_Subtract, data_Add] at h
      obtain ⟨-, -, ho, -⟩ := binary_step fmt l r l₂ r₂ _ _ s₁ s₂ ihl ihr h
      exact absurd ho (by decide)

    | Subtract l₂ r₂ =>
      rw [data_Subtract, data_Subtract] at h
      obtain ⟨hl, hr, -, hs⟩ := binary_step fmt l r l₂ r₂ _ _ s₁ s₂ ihl ihr h
      exact ⟨by simp only [shape, hl, hr], hs⟩

    | Multiply l₂ r₂ =>
      rw [data_Subtract, data_Multiply] at h
      obtain ⟨-, -, ho, -⟩ := binary_step fmt l r l₂ r₂ _ _ s₁ s₂ ihl ihr h
      exact absurd ho (by decide)

    | Power l₂ r₂ =>
      rw [data_Subtract, data_Power] at h
      obtain ⟨-, -, ho, -⟩ := binary_step fmt l r l₂ r₂ _ _ s₁ s₂ ihl ihr h
      exact absurd ho (by decide)

    | Divide l₂ r₂ =>
      rw [data_Subtract, data_Divide] at h
      obtain ⟨-, -, ho, -⟩ := binary_step fmt l r l₂ r₂ _ _ s₁ s₂ ihl ihr h
      exact absurd ho (by decide)

    | Cos a₂ =>
      rw [data_Subtract, data_Cos] at h
      simp at h

    | Sin a₂ =>
      rw [data_Subtract, data_Sin] at h
      simp at h

  | Multiply l r ihl ihr =>
    intro e₂ s₁ s₂ f₁ f₂ h
    cases e₂ with
    | Constant c =>
      obtain ⟨c₂, hc⟩ := plain_prefix_constant fmt (Multiply l r) (fmt c).data s₂ s₁ (hfmt c) f₂ h.symm
      cases hc
    | Variable =>
      rw [data_Multiply, data_Variable] at h
      simp at h

    | Add l₂ r₂ =>
      rw [data_Multiply, data_Add] at h
      obtain ⟨-, -, ho, -⟩ := binary_step fmt l r l₂ r₂ _ _ s₁ s₂ ihl ihr h
      exact absurd ho (by decide)

    | Subtract l₂ r₂ =>
      rw [data_Multiply, data_Subtract] at h
      obtain ⟨-, -, ho, -⟩ := binary_step fmt l r l₂ r₂ _ _ s₁ s₂ ihl ihr h
      exact absurd ho (by decide)

    | Multiply l₂ r₂ =>
      rw [data_Multiply, data_Multiply] at h
      obtain ⟨hl, hr, -, hs⟩ := binary_step fmt l r l₂ r₂ _ _ s₁ s₂ ihl ihr h
      exact ⟨by simp only [shape, hl, hr], hs⟩

    | Power l₂ r₂ =>
      rw [data_Multiply, data_Power] at h
      obtain ⟨-, -, ho, -⟩ := binary_step fmt l r l₂ r₂ _ _ s₁ s₂ ihl ihr h
      exact absurd ho (by decide)

    | Divide l₂ r₂ =>
      rw [data_Multiply, data_Divide] at h
      obtain ⟨-, -, ho, -⟩ := binary_step fmt l r l₂ r₂ _ _ s₁ s₂ ihl ihr h
      exact absurd ho (by decide)

    | Cos a₂ =>
      rw [data_Multiply, data_Cos] at h
      simp at h

    | Sin a₂ =>
      rw [data_Multiply, data_Sin] at h
      simp at h

  | Power l r ihl ihr =>
    intro e₂ s₁ s₂ f₁ f₂ h
    cases e₂ with
    | Constant c =>
      obtain ⟨c₂, hc⟩ := plain_prefix_constant fmt (Power l r) (fmt c).data s₂ s₁ (hfmt c) f₂ h.symm
      cases hc
    | Variable =>
      rw [data_Power, data_Variable] at h
      simp at h

    | Add l₂ r₂ =>
      rw [data_Power, data_Add] at h
      obtain ⟨-, -, ho, -⟩ := binary_step fmt l r l₂ r₂ _ _ s₁ s₂ ihl ihr h
      exact absurd ho (by decide)

    | Subtract l₂ r₂ =>
      rw [data_Power, data_Subtract] at h
      obtain ⟨-, -, ho, -⟩ := binary_step fmt l r l₂ r₂ _ _ s₁ s₂ ihl ihr h
      exact absurd ho (by decide)

    | Multiply l₂ r₂ =>
      rw [data_Power, data_Multiply] at h
      obtain ⟨-, -, ho, -⟩ := binary_step fmt l r l₂ r₂ _ _ s₁ s₂ ihl ihr h
      exact absurd ho (by decide)

    | Power l₂ r₂ =>
      rw [data_Power, data_Power] at h
      obtain ⟨hl, hr, -, hs⟩ := binary_step fmt l r l₂ r₂ _ _ s₁ s₂ ihl ihr h
      exact ⟨by simp only [shape, hl, hr], hs⟩

    | Divide l₂ r₂ =>
      rw [data_Power, data_Divide] at h
      obtain ⟨-, -, ho, -⟩ := binary_step fmt l r l₂ r₂ _ _ s₁ s₂ ihl ihr h
      exact absurd ho (by decide)

    | Cos a₂ =>
      rw [data_Power, data_Cos] at h
      simp at h

    | Sin a₂ =>
      rw [data_Power, data_Sin] at h
      simp at h

  | Divide l r ihl ihr =>
    intro e₂ s₁ s₂ f₁ f₂ h
    cases e₂ with
    | Constant c =>
      obtain ⟨c₂, hc⟩ := plain_prefix_constant fmt (Divide l r) (fmt c).data s₂ s₁ (hfmt c) f₂ h.symm
      cases hc
    | Variable =>
      rw [data_Divide, data_Variable] at h
      simp at h

    | Add l₂ r₂ =>
      rw [data_Divide, data_Add] at h
      obtain ⟨-, -, ho, -⟩ := binary_step fmt l r l₂ r₂ _ _ s₁ s₂ ihl ihr h
      exact absurd ho (by decide)

    | Subtract l₂ r₂ =>
      rw [data_Divide, data_Subtract] at h
      obtain ⟨-, -, ho, -⟩ := binary_step fmt l r l₂ r₂ _ _ s₁ s₂ ihl ihr h
      exact absurd ho (by decide)

    | Multiply l₂ r₂ =>
      rw [data_Divide, data_Multiply] at h
      obtain ⟨-, -, ho, -⟩ := binary_step fmt l r l₂ r₂ _ _ s₁ s₂ ihl ihr h
      exact absurd ho (by decide)

    | Power l₂ r₂ =>
      rw [data_Divide, data_Power] at h
      obtain ⟨-, -, ho, -⟩ := binary_step fmt l r l₂ r₂ _ _ s₁ s₂ ihl ihr h
      exact absurd ho (by decide)

    | Divide l₂ r₂ =>
      rw [data_Divide, data_Divide] at h
      obtain ⟨hl, hr, -, hs⟩ := binary_step fmt l r l₂ r₂ _ _ s₁ s₂ ihl ihr h
      exact ⟨by simp only [shape, hl, hr], hs⟩

    | Cos a₂ =>
      rw [data_Divide, data_Cos] at h
      simp at h

    | Sin a₂ =>
      rw [data_Divide, data_Sin] at h
      simp at h

  | Cos a iha =>
    intro e₂ s₁ s₂ f₁ f₂ h
    cases e₂ with
    | Constant c =>
      obtain ⟨c₂, hc⟩ := plain_prefix_constant fmt (Cos a) (fmt c).data s₂ s₁ (hfmt c) f₂ h.symm
      cases hc
    | Variable =>
      rw [data_Cos, data_Variable] at h
      simp at h

    | Add l₂ r₂ =>
      rw [data_Cos, data_Add] at h
      simp at h

    | Subtract l₂ r₂ =>
      rw [data_Cos, data_Subtract] at h
      simp at h

    | Multiply l₂ r₂ =>
      rw [data_Cos, data_Multiply] at h
      simp at h

    | Power l₂ r₂ =>
      rw [data_Cos, data_Power] at h
      simp at h

    | Divide l₂ r₂ =>
      rw [data_Cos, data_Divide] at h
      simp at h

    | Cos a₂ =>
      rw [data_Cos, data_Cos] at h
      simp only [List.cons.injEq, true_and] at h
      obtain ⟨ha, ht⟩ := iha a₂ _ _ (by simp) (by simp) h
      simp only [List.cons.injEq, true_and] at ht
      exact ⟨by simp only [shape, ha], ht⟩

    | Sin a₂ =>
      rw [data_Cos, data_Sin] at h
      simp at h

  | Sin a iha =>
    intro e₂ s₁ s₂ f₁ f₂ h
    cases e₂ with
    | Constant c =>
      obtain ⟨c₂, hc⟩ := plain_prefix_constant fmt (Sin a) (fmt c).data s₂ s₁ (hfmt c) f₂ h.symm
      cases hc
    | Variable =>
      rw [data_Sin, data_Variable] at h
      simp at h

    | Add l₂ r₂ =>
      rw [data_Sin, data_Add] at h
      simp at h

    | Subtract l₂ r₂ =>
      rw [data_Sin, data_Subtract] at h
      simp at h

    | Multiply l₂ r₂ =>
      rw [data_Sin, data_Multiply] at h
      simp at h

    | Power l₂ r₂ =>
      rw [data_Sin, data_Power] at h
      simp at h

    | Divide l₂ r₂ =>
      rw [data_Sin, data_Divide] at h
      simp at h

    | Cos a₂ =>
      rw [data_Sin, data_Cos] at h
      simp at h

    | Sin a₂ =>
      rw [data_Sin, data_Sin] at h
      simp only [List.cons.injEq, true_and] at h
      obtain ⟨ha, ht⟩ := iha a₂ _ _ (by simp) (by simp) h
      simp only [List.cons.injEq, true_and] at ht
      exact ⟨by simp only [shape, ha], ht⟩

/-! ## The differentiation rules, variant by variant -/

/-- Claim C1. Soundness of symbolic differentiation over the exact reals: when
`derivative()` succeeds on `e` with result `d`, at every real `x` at which every
`Divide` divisor inside `e` is non-zero and every `Power` inside `e` has a
positive base or a positive integer as its constant exponent, the function
`t ↦ evaluate(e, t)` is differentiable at `x` and its derivative at `x` is
`evaluate(d, x)`. -/
theorem derivative_sound (e d : Expression ℝ) (x : ℝ)
    (hd : derivative Scalar.real e = .ok d)
    (hdiv : ∀ l r, Divide l r ∈ subexpressions e → evaluate Scalar.real r x ≠ 0)
    (hpow : ∀ b ex, Power b ex ∈ subexpressions e →
      0 < evaluate Scalar.real b x ∨ ∃ k : ℕ, 0 < k ∧ ex = Constant (k : ℝ)) :
    DifferentiableAt ℝ (fun t => evaluate Scalar.real e t) x
    ∧ deriv (fun t => evaluate Scalar.real e t) x = evaluate Scalar.real d x :=
  have h := hasDerivAt_evaluate e d x hd hdiv hpow
  ⟨h.differentiableAt, h.deriv⟩

/-- Witness of C1: `x^3 / x` at `x = -2`, a negative base under a positive
integer exponent and a non-zero divisor. -/
theorem derivative_sound_witness :
    derivative Scalar.real (Divide (Power Variable (Constant 3)) Variable)
      = .ok (Divide
          (Subtract
            (Multiply (Multiply (Multiply (Constant 3) (Power Variable (Constant (3 - 1))))
              (Constant 1)) Variable)
            (Multiply (Power Variable (Constant 3)) (Constant 1)))
          (Power Variable (Constant 2)))
    ∧ (∀ l r, Divide l r ∈ subexpressions (Divide (Power Variable (Constant (3 : ℝ))) Variable) →
        evaluate Scalar.real r (-2) ≠ 0)
    ∧ (∀ b ex, Power b ex ∈ subexpressions (Divide (Power Variable (Constant (3 : ℝ))) Variable) →
        0 < evaluate Scalar.real b (-2) ∨ ∃ k : ℕ, 0 < k ∧ ex = Constant (k : ℝ))
    ∧ DifferentiableAt ℝ
        (fun t => evaluate Scalar.real (Divide (Power Variable (Constant 3)) Variable) t) (-2)
    ∧ deriv (fun t => evaluate Scalar.real (Divide (Power Variable (Constant 3)) Variable) t) (-2)
      = (3 * (-2) ^ ((3 : ℝ) - 1) * 1 * (-2) - (-2) ^ (3 : ℝ) * 1) / (-2) ^ (2 : ℝ) :=
  have hdiv : ∀ l r,
      Divide l r ∈ subexpressions (Divide (Power Variable (Constant (3 : ℝ))) Variable) →
        evaluate Scalar.real r (-2) ≠ 0 := by
    intro l r hm
    simp only [subexpressions, List.mem_cons, List.mem_append, Divide.injEq, reduceCtorEq,
      List.mem_singleton, List.not_mem_nil, or_false, false_or] at hm
    obtain ⟨-, rfl⟩ := hm
    simp [evaluate]
  have hpow : ∀ b ex,
      Power b ex ∈ subexpressions (Divide (Power Variable (Constant (3 : ℝ))) Variable) →
        0 < evaluate Scalar.real b (-2) ∨ ∃ k : ℕ, 0 < k ∧ ex = Constant (k : ℝ) := by
    intro b ex hm
    simp only [subexpressions, List.mem_cons, List.mem_append, Power.injEq, reduceCtorEq,
      List.mem_singleton, List.not_mem_nil, or_false, false_or] at hm
    obtain ⟨-, rfl⟩ := hm
    exact Or.inr ⟨3, by norm_num, by norm_num⟩
  ⟨rfl, hdiv, hpow,
    derivative_sound (Divide (Power Variable (Constant 3)) Variable)
      (Divide
        (Subtract
          (Multiply (Multiply (Multiply (Constant 3) (Power Variable (Constant (3 - 1))))
            (Constant 1)) Variable)
          (Multiply (Power Variable (Constant 3)) (Constant 1)))
        (Power Variable (Constant 2)))
      (-2) rfl hdiv hpow⟩

/-- Claim C2. The unsupported-exponent failure is the only failure of
`derivative()`: an error it returns is the unsupported-exponent one, it fails
exactly when the expression contains a `Power` node whose exponent child is not
a literal `Constant` node, and it succeeds exactly when every `Power` node
anywhere in the expression has a literal `Constant` exponent. -/
theorem derivative_fails_iff (S : Scalar α) (e : Expression α) :
    (∀ m, derivative S e = .error m → m = unsupportedExponent)
    ∧ (derivative S e = .error unsupportedExponent
        ↔ ∃ b ex, Power b ex ∈ subexpressions e ∧ ∀ v, ex ≠ Constant v)
    ∧ ((∃ d, derivative S e = .ok d)
        ↔ ∀ b ex, Power b ex ∈ subexpressions e → ∃ v, ex = Constant v) := by
  refine ⟨derivative_error_eq S e, ?_, derivative_ok_iff S e⟩
  have hok := derivative_ok_iff S e
  constructor
  · intro herr
    by_contra hno
    have hce : ConstExponents e := by
      intro b ex hm
      by_contra hv
      exact hno ⟨b, ex, hm, fun v hev => hv ⟨v, hev⟩⟩
    obtain ⟨d, hd⟩ := hok.2 hce
    rw [hd] at herr
    cases herr
  · rintro ⟨b, ex, hm, hv⟩
    cases hres : derivative S e with
    | error m => rw [derivative_error_eq S e m hres]
    | ok d =>
      obtain ⟨v, hev⟩ := hok.1 ⟨d, hres⟩ b ex hm
      exact absurd hev (hv v)

/-- Claim C3. `Power(b, e).derivative()` fails with the unsupported-differentiation
error for every base `b` and every exponent `e` that is not a literal `Constant`
node; in particular for `Power(Variable, Variable)` and for the constant-foldable
exponent of `Power(Variable, Add(Constant(2), Constant(1)))`. -/
theorem power_derivative_unsupported (S : Scalar α) (b ex : Expression α)
    (hex : ∀ v, ex ≠ Constant v) :
    derivative S (Power b ex) = .error unsupportedExponent
    ∧ derivative S (Power Variable Variable) = .error unsupportedExponent
    ∧ derivative S (Power Variable (Add (Constant S.two) (Constant S.one)))
        = .error unsupportedExponent := by
  refine ⟨?_, rfl, rfl⟩
  cases ex with
  | Constant v => exact absurd rfl (hex v)
  | _ => rfl

/-- Witness of C3: the exponent `sin(x)` over the base `(x * x)`. -/
theorem power_derivative_unsupported_witness :
    (∀ v : ℝ, (Sin Variable : Expression ℝ) ≠ Constant v)
    ∧ derivative Scalar.real (Power (Multiply Variable Variable) (Sin Variable))
        = .error unsupportedExponent :=
  ⟨fun _ h => Expression.noConfusion h,
   (power_derivative_unsupported Scalar.real (Multiply Variable Variable) (Sin Variable)
      (fun _ h => Expression.noConfusion h)).1⟩

/-- Claim C4. Power rule: when the derivative of the base `b` succeeds with `db`,
`Power(b, Constant(n)).derivative()` succeeds with exactly
`Multiply(Multiply(Constant(n), Power(b, Constant(n - 1))), db)`; the base of the
inner `Power` is `b` itself. -/
theorem power_rule (S : Scalar α) (b db : Expression α) (n : α)
    (hb : derivative S b = .ok db) :
    derivative S (Power b (Constant n))
      = .ok (Multiply (Multiply (Constant n) (Power b (Constant (S.sub n S.one)))) db) := by
  simp only [derivative, isConstant, hb]
  rfl

/-- Witness of C4: `d/dx sin(x)^3`. -/
theorem power_rule_witness :
    derivative Scalar.real (Sin Variable) = .ok (Multiply (Cos Variable) (Constant 1))
    ∧ derivative Scalar.real (Power (Sin Variable) (Constant 3))
      = .ok (Multiply (Multiply (Constant 3) (Power (Sin Variable) (Constant (3 - 1))))
          (Multiply (Cos Variable) (Constant 1))) :=
  ⟨rfl, power_rule Scalar.real (Sin Variable) (Multiply (Cos Variable) (Constant 1)) 3 rfl⟩

/-- Claim C5. Product rule: when the derivatives of `l` and `r` succeed with `dl`
and `dr`, `Multiply(l, r).derivative()` returns exactly
`Add(Multiply(dl, r), Multiply(l, dr))`, with `l` and `r` themselves inside. -/
theorem product_rule (S : Scalar α) (l r dl dr : Expression α)
    (hl : derivative S l = .ok dl) (hr : derivative S r = .ok dr) :
    derivative S (Multiply l r) = .ok (Add (Multiply dl r) (Multiply l dr)) := by
  simp only [derivative, hl, hr]
  rfl

/-- Witness of C5: `d/dx (x * sin(x))`. -/
theorem product_rule_witness :
    derivative Scalar.real Variable = .ok (Constant 1)
    ∧ derivative Scalar.real (Sin Variable) = .ok (Multiply (Cos Variable) (Constant 1))
    ∧ derivative Scalar.real (Multiply Variable (Sin Variable))
      = .ok (Add (Multiply (Constant 1) (Sin Variable))
          (Multiply Variable (Multiply (Cos Variable) (Constant 1)))) :=
  ⟨rfl, rfl, product_rule Scalar.real Variable (Sin Variable) (Constant 1)
    (Multiply (Cos Variable) (Constant 1)) rfl rfl⟩

/-- Claim C6. Quotient rule: when the derivatives of `l` and `r` succeed with `dl`
and `dr`, `Divide(l, r).derivative()` returns exactly
`Divide(Subtract(Multiply(dl, r), Multiply(l, dr)), Power(r, Constant(2)))`. -/
theorem quotient_rule (S : Scalar α) (l r dl dr : Expression α)
    (hl : derivative S l = .ok dl) (hr : derivative S r = .ok dr) :
    derivative S (Divide l r)
      = .ok (Divide (Subtract (Multiply dl r) (Multiply l dr)) (Power r (Constant S.two))) := by
  simp only [derivative, hl, hr]
  rfl

/-- Witness of C6: `d/dx (sin(x) / x)`. -/
theorem quotient_rule_witness :
    derivative Scalar.real (Sin Variable) = .ok (Multiply (Cos Variable) (Constant 1))
    ∧ derivative Scalar.real Variable = .ok (Constant 1)
    ∧ derivative Scalar.real (Divide (Sin Variable) Variable)
      = .ok (Divide (Subtract (Multiply (Multiply (Cos Variable) (Constant 1)) Variable)
            (Multiply (Sin Variable) (Constant 1)))
          (Power Variable (Constant 2))) :=
  ⟨rfl, rfl, quotient_rule Scalar.real (Sin Variable) Variable
    (Multiply (Cos Variable) (Constant 1)) (Constant 1) rfl rfl⟩

/-- Claim C7. Chain rule for the trigonometric nodes: when the derivative of the
argument `a` succeeds with `da`, `Sin(a).derivative()` returns exactly
`Multiply(Cos(a), da)` and `Cos(a).derivative()` returns exactly
`Multiply(Multiply(Constant(-1), Sin(a)), da)`. -/
theorem trig_chain_rule (S : Scalar α) (a da : Expression α)
    (ha : derivative S a = .ok da) :
    derivative S (Sin a) = .ok (Multiply (Cos a) da)
    ∧ derivative S (Cos a) = .ok (Multiply (Multiply (Constant S.negOne) (Sin a)) da) := by
  constructor <;> · simp only [derivative, ha]; rfl

/-- Witness of C7: the argument `2 * x`. -/
theorem trig_chain_rule_witness :
    derivative Scalar.real (Multiply (Constant 2) Variable)
      = .ok (Add (Multiply (Constant 0) Variable) (Multiply (Constant 2) (Constant 1)))
    ∧ derivative Scalar.real (Sin (Multiply (Constant 2) Variable))
      = .ok (Multiply (Cos (Multiply (Constant 2) Variable))
          (Add (Multiply (Constant 0) Variable) (Multiply (Constant 2) (Constant 1))))
    ∧ derivative Scalar.real (Cos (Multiply (Constant 2) Variable))
      = .ok (Multiply (Multiply (Constant (-1)) (Sin (Multiply (Constant 2) Variable)))
          (Add (Multiply (Constant 0) Variable) (Multiply (Constant 2) (Constant 1)))) :=
  ⟨rfl, trig_chain_rule Scalar.real (Multiply (Constant 2) Variable)
    (Add (Multiply (Constant 0) Variable) (Multiply (Constant 2) (Constant 1))) rfl⟩

/-- Claim C8. Repeated differentiation is supported: when `derivative()`
succeeds on `e` with result `d`, it also succeeds on `d`, the `n`-th derivative of
`e` exists for every `n`, and every `Power` node of `d` has a literal `Constant`
exponent. -/
theorem derivative_repeatable (S : Scalar α) (e d : Expression α)
    (h : derivative S e = .ok d) :
    (∃ dd, derivative S d = .ok dd)
    ∧ (∀ n, ∃ dn, nthDerivative S n e = .ok dn)
    ∧ (∀ b ex, Power b ex ∈ subexpressions d → ∃ v, ex = Constant v) := by
  have hd : ConstExponents d := derivative_constExponents S e d h
  refine ⟨(derivative_ok_iff S d).2 hd, ?_, hd⟩
  intro n
  obtain ⟨dn, hn, -⟩ := nthDerivative_ok S e ((derivative_ok_iff S e).1 ⟨d, h⟩) n
  exact ⟨dn, hn⟩

/-- Witness of C8: `sin(x) / x`, whose derivative holds the new node
`Power(x, Constant(2))`. -/
theorem derivative_repeatable_witness :
    derivative Scalar.real (Divide (Sin Variable) Variable)
      = .ok (Divide (Subtract (Multiply (Multiply (Cos Variable) (Constant 1)) Variable)
            (Multiply (Sin Variable) (Constant 1)))
          (Power Variable (Constant 2)))
    ∧ (∃ dd, derivative Scalar.real
        (Divide (Subtract (Multiply (Multiply (Cos Variable) (Constant 1)) Variable)
            (Multiply (Sin Variable) (Constant 1)))
          (Power Variable (Constant 2))) = .ok dd) :=
  ⟨rfl, (derivative_repeatable Scalar.real (Divide (Sin Variable) Variable) _ rfl).1⟩

/-- Claim C9. `isConstant` is exact on literals: it reports the value `v` exactly
when the expression is the node `Constant(v)`, and reports absence for every
other variant, including the variable-free `Sin(Constant(0))` and
`Add(Constant(2), Constant(1))`. -/
theorem isConstant_exact (S : Scalar α) (e : Expression α) (v : α) :
    (isConstant e = some v ↔ e = Constant v)
    ∧ (isConstant e = none ↔ ∀ w, e ≠ Constant w)
    ∧ isConstant (Sin (Constant S.zero)) = none
    ∧ isConstant (Add (Constant S.two) (Constant S.one)) = none := by
  refine ⟨?_, ?_, rfl, rfl⟩
  · cases e <;> simp [isConstant]
  · cases e <;> simp [isConstant]

/-- Claim C10. `evaluate` computes the denotation given by the per-variant table:
its result satisfies the table and is the only value that does; `Constant(v)`
gives `v` and `Variable` gives `x` at every `x`, so `Constant(5)` gives `5`; and
over the reals the expression of `main` evaluates to `(x^2 + 3x) * sin(x)` at
every `x`, so to `10 * sin(2)` at `x = 2`. -/
theorem evaluate_denotation (S : Scalar α) (e : Expression α) (x : α) :
    Denotes S x e (evaluate S e x)
    ∧ (∀ v, Denotes S x e v → v = evaluate S e x)
    ∧ (∀ v, evaluate S (Constant v) x = v)
    ∧ evaluate S Variable x = x
    ∧ (∀ t : ℝ, evaluate Scalar.real (Constant 5) t = 5)
    ∧ (∀ t : ℝ, evaluate Scalar.real Variable t = t)
    ∧ (∀ t : ℝ, evaluate Scalar.real driverExpr t = (t ^ 2 + 3 * t) * Real.sin t)
    ∧ evaluate Scalar.real driverExpr 2 = 10 * Real.sin 2 := by
  have hdrv : ∀ t : ℝ, evaluate Scalar.real driverExpr t = (t ^ 2 + 3 * t) * Real.sin t := by
    intro t
    show (t ^ (2 : ℝ) + 3 * t) * Real.sin t = (t ^ 2 + 3 * t) * Real.sin t
    rw [Real.rpow_two]
  refine ⟨denotes_evaluate S x e, denotes_unique S x e, fun _ => rfl, rfl, fun _ => rfl,
    fun _ => rfl, hdrv, ?_⟩
  rw [hdrv 2]
  norm_num


/-! ## The test scenarios of the specification -/

/-- Claim C11. Sum rule test: `derivative()` of
`Add(Power(Variable, Constant(2)), Constant(3))` succeeds, and at every real `x`
the result evaluates to `2 * x`, as a real number (no exceptional value arises). -/
theorem sum_rule_test :
    ∃ d, derivative Scalar.real (Add (Power Variable (Constant 2)) (Constant 3)) = .ok d
      ∧ ∀ x : ℝ, evaluate Scalar.real d x = 2 * x ∧ evaluateExact d x = some (2 * x) := by
  refine ⟨_, rfl, fun x => ?_⟩
  have hx : x ^ ((2 : ℝ) - 1) = x := by norm_num
  constructor
  · show 2 * x ^ ((2 : ℝ) - 1) * 1 + 0 = 2 * x
    rw [hx]
    ring
  · have hp : PowDefined x ((2 : ℝ) - 1) := by
      have h := powDefined_one x
      norm_num
      exact h
    have h := evaluateExact_Add
      (evaluateExact_Multiply
        (evaluateExact_Multiply (evaluateExact_Constant 2 x)
          (evaluateExact_Power (evaluateExact_Variable x) (evaluateExact_Constant (2 - 1) x) hp))
        (evaluateExact_Constant 1 x))
      (evaluateExact_Constant 0 x)
    rw [hx] at h
    rw [show (2 : ℝ) * x = 2 * x * 1 + 0 by ring]
    exact h

/-- Claim C12. Product rule test: `derivative()` of `Multiply(Variable, Sin(Variable))`
succeeds, and at every real `x` the result evaluates to `sin(x) + x * cos(x)`;
so to `0` at `x = 0` and to `1` at `x = pi / 2`. -/
theorem product_rule_test :
    ∃ d, derivative Scalar.real (Multiply Variable (Sin Variable)) = .ok d
      ∧ (∀ x : ℝ, evaluate Scalar.real d x = Real.sin x + x * Real.cos x
          ∧ evaluateExact d x = some (Real.sin x + x * Real.cos x))
      ∧ evaluate Scalar.real d 0 = 0
      ∧ evaluate Scalar.real d (Real.pi / 2) = 1 := by
  refine ⟨_, rfl, fun x => ⟨?_, ?_⟩, ?_, ?_⟩
  · show 1 * Real.sin x + x * (Real.cos x * 1) = Real.sin x + x * Real.cos x
    ring
  · have h := evaluateExact_Add
      (evaluateExact_Multiply (evaluateExact_Constant 1 x)
        (evaluateExact_Sin (evaluateExact_Variable x)))
      (evaluateExact_Multiply (evaluateExact_Variable x)
        (evaluateExact_Multiply (evaluateExact_Cos (evaluateExact_Variable x))
          (evaluateExact_Constant 1 x)))
    rw [show Real.sin x + x * Real.cos x = 1 * Real.sin x + x * (Real.cos x * 1) by ring]
    exact h
  · show 1 * Real.sin 0 + 0 * (Real.cos 0 * 1) = 0
    simp
  · show 1 * Real.sin (Real.pi / 2) + Real.pi / 2 * (Real.cos (Real.pi / 2) * 1) = 1
    simp

/-- Claim C13. Chain rule test: `derivative()` of `Sin(Multiply(Constant(2), Variable))`
succeeds, and at every real `x` the result evaluates to `2 * cos(2 * x)`; so to
`2` at `x = 0`. -/
theorem chain_rule_test :
    ∃ d, derivative Scalar.real (Sin (Multiply (Constant 2) Variable)) = .ok d
      ∧ (∀ x : ℝ, evaluate Scalar.real d x = 2 * Real.cos (2 * x)
          ∧ evaluateExact d x = some (2 * Real.cos (2 * x)))
      ∧ evaluate Scalar.real d 0 = 2 := by
  refine ⟨_, rfl, fun x => ⟨?_, ?_⟩, ?_⟩
  · show Real.cos (2 * x) * (0 * x + 2 * 1) = 2 * Real.cos (2 * x)
    ring
  · have h := evaluateExact_Multiply
      (evaluateExact_Cos
        (evaluateExact_Multiply (evaluateExact_Constant 2 x) (evaluateExact_Variable x)))
      (evaluateExact_Add
        (evaluateExact_Multiply (evaluateExact_Constant 0 x) (evaluateExact_Variable x))
        (evaluateExact_Multiply (evaluateExact_Constant 2 x) (evaluateExact_Constant 1 x)))
    rw [show 2 * Real.cos (2 * x) = Real.cos (2 * x) * (0 * x + 2 * 1) by ring]
    exact h
  · show Real.cos (2 * 0) * (0 * 0 + 2 * 1) = 2
    simp

/-- Claim C14. Power rule test: `Power(Variable, Constant(3)).derivative()` succeeds,
and at every real `x`, negative and zero included, the result evaluates to
`3 * x^2`, as a real number. -/
theorem power_rule_test :
    ∃ d, derivative Scalar.real (Power Variable (Constant 3)) = .ok d
      ∧ ∀ x : ℝ, evaluate Scalar.real d x = 3 * x ^ 2
          ∧ evaluateExact d x = some (3 * x ^ 2) := by
  refine ⟨_, rfl, fun x => ?_⟩
  have hx : x ^ ((3 : ℝ) - 1) = x ^ 2 := by
    rw [show (3 : ℝ) - 1 = 2 by norm_num, Real.rpow_two]
  constructor
  · show 3 * x ^ ((3 : ℝ) - 1) * 1 = 3 * x ^ 2
    rw [hx]
    ring
  · have hp : PowDefined x ((3 : ℝ) - 1) := by
      rw [show (3 : ℝ) - 1 = 2 by norm_num]
      exact powDefined_two x
    have h := evaluateExact_Multiply
      (evaluateExact_Multiply (evaluateExact_Constant 3 x)
        (evaluateExact_Power (evaluateExact_Variable x) (evaluateExact_Constant (3 - 1) x) hp))
      (evaluateExact_Constant 1 x)
    rw [hx] at h
    rw [show (3 : ℝ) * x ^ 2 = 3 * x ^ 2 * 1 by ring]
    exact h

/-- Claim C15. End-to-end scenario: for `f = Multiply(A, S)` with
`A = Add(Power(x, Constant(2)), Multiply(Constant(3), x))` and `S = Sin(x)`, the
expression of `main`, `derivative(f)` succeeds and is exactly
`Add(Multiply(A', S), Multiply(A, S'))` with the unsimplified
`A' = Add(Multiply(Multiply(Constant(2), Power(x, Constant(1))), Constant(1)),
Add(Multiply(Constant(0), x), Multiply(Constant(3), Constant(1))))` and
`S' = Multiply(Cos(x), Constant(1))`. -/
theorem driver_derivative :
    derivative Scalar.real driverExpr
      = .ok (Add
          (Multiply
            (Add
              (Multiply (Multiply (Constant 2) (Power Variable (Constant 1))) (Constant 1))
              (Add (Multiply (Constant 0) Variable) (Multiply (Constant 3) (Constant 1))))
            (Sin Variable))
          (Multiply
            (Add (Power Variable (Constant 2)) (Multiply (Constant 3) Variable))
            (Multiply (Cos Variable) (Constant 1)))) := by
  have h : derivative Scalar.real driverExpr
      = .ok (Add
          (Multiply
            (Add
              (Multiply (Multiply (Constant 2) (Power Variable (Constant (2 - 1)))) (Constant 1))
              (Add (Multiply (Constant 0) Variable) (Multiply (Constant 3) (Constant 1))))
            (Sin Variable))
          (Multiply
            (Add (Power Variable (Constant 2)) (Multiply (Constant 3) Variable))
            (Multiply (Cos Variable) (Constant 1)))) := rfl
  rw [h, show (2 : ℝ) - 1 = 1 by norm_num]

/-! ## The error of `Power::derivative` -/

/-- Claim C18, as amended. When `Power(b, e).derivative()` fails because `e` is
not a literal `Constant`, the failure that reaches the caller is the one fixed
unsupported-differentiation error, the same for every base and every exponent:
it does not identify the exponent. -/
theorem power_error_uniform (S : Scalar α) (b₁ b₂ e₁ e₂ : Expression α)
    (h₁ : isConstant e₁ = none) (h₂ : isConstant e₂ = none) :
    derivative S (Power b₁ e₁) = .error unsupportedExponent
    ∧ derivative S (Power b₁ e₁) = derivative S (Power b₂ e₂) := by
  simp only [derivative, h₁, h₂, and_self]

/-- Witness of the amended C18: the exponents `x` and `sin(x)`. -/
theorem power_error_uniform_witness :
    isConstant (Variable : Expression ℝ) = none
    ∧ isConstant (Sin Variable : Expression ℝ) = none
    ∧ derivative Scalar.real (Power Variable Variable) = .error unsupportedExponent
    ∧ derivative Scalar.real (Power Variable Variable)
        = derivative Scalar.real (Power (Constant 2) (Sin Variable)) :=
  ⟨rfl, rfl, power_error_uniform Scalar.real Variable (Constant 2) Variable (Sin Variable) rfl rfl⟩

/-- Counterexample to C18 as stated: `Power(x, x)` and `Power(x, sin(x))` fail on
different non-constant exponents, and the two errors that reach the caller are
equal, so the exponent cannot be told from the error. -/
theorem power_error_identifies_counterexample :
    (Variable : Expression ℝ) ≠ Sin Variable
    ∧ (∃ m, derivative Scalar.real (Power Variable Variable) = .error m)
    ∧ (∃ m, derivative Scalar.real (Power Variable (Sin Variable)) = .error m)
    ∧ derivative Scalar.real (Power Variable Variable)
        = derivative Scalar.real (Power Variable (Sin Variable)) :=
  ⟨fun h => Expression.noConfusion h, ⟨_, rfl⟩, ⟨_, rfl⟩, rfl⟩

/-! ## Rendering -/

/-- Claim C16. `toString` follows the fully parenthesized per-variant forms for
every expression: `Variable` is `x`, a binary node is `(L op R)` with `op` one of
`+ - * / ^` between single spaces, `Sin` and `Cos` are `sin(A)` and `cos(A)`, a
`Constant` is the text of its value; with the constant `1` rendered as `1`,
`Add(Variable, Constant(1))` renders as `(x + 1)` and
`Multiply(Add(Variable, Constant(1)), Variable)` as `((x + 1) * x)`. -/
theorem toString_forms (fmt : α → String) (l r a : Expression α) (v one : α)
    (hone : fmt one = "1") :
    toString fmt (Constant v) = fmt v
    ∧ toString fmt Variable = "x"
    ∧ toString fmt (Add l r) = "(" ++ toString fmt l ++ " + " ++ toString fmt r ++ ")"
    ∧ toString fmt (Subtract l r) = "(" ++ toString fmt l ++ " - " ++ toString fmt r ++ ")"
    ∧ toString fmt (Multiply l r) = "(" ++ toString fmt l ++ " * " ++ toString fmt r ++ ")"
    ∧ toString fmt (Divide l r) = "(" ++ toString fmt l ++ " / " ++ toString fmt r ++ ")"
    ∧ toString fmt (Power l r) = "(" ++ toString fmt l ++ " ^ " ++ toString fmt r ++ ")"
    ∧ toString fmt (Sin a) = "sin(" ++ toString fmt a ++ ")"
    ∧ toString fmt (Cos a) = "cos(" ++ toString fmt a ++ ")"
    ∧ toString fmt (Add Variable (Constant one)) = "(x + 1)"
    ∧ toString fmt (Multiply (Add Variable (Constant one)) Variable) = "((x + 1) * x)" := by
  refine ⟨rfl, rfl, rfl, rfl, rfl, rfl, rfl, rfl, rfl, ?_, ?_⟩
  · simp only [toString, hone]
    rfl
  · simp only [toString, hone]
    rfl

/-- Witness of C16: integer constants written in decimal, and the tree
`sin(x) ^ 2`. -/
theorem toString_forms_witness :
    Int.repr 1 = "1"
    ∧ toString Int.repr (Power (Sin Variable) (Constant 2)) = "(sin(x) ^ 2)"
    ∧ toString Int.repr (Add Variable (Constant 1)) = "(x + 1)" :=
  ⟨rfl, rfl,
    (toString_forms Int.repr (Sin Variable) (Constant 2) Variable 0 1 rfl).2.2.2.2.2.2.2.2.2.1⟩

/-- Claim C17. Rendering determines the tree shape: when the text of a constant
contains no space, no parenthesis and no letter `x` (so that it cannot begin
with `sin(` or `cos(` either), two expressions with the same rendering are the
same tree up to the numeric values of their `Constant` leaves. -/
theorem toString_determines_shape (fmt : α → String) (e₁ e₂ : Expression α)
    (hfmt : ∀ v, ∀ c ∈ (fmt v).data, c ≠ ' ' ∧ c ≠ '(' ∧ c ≠ ')' ∧ c ≠ 'x')
    (h : toString fmt e₁ = toString fmt e₂) : shape e₁ = shape e₂ := by
  have hd : (toString fmt e₁).data ++ [] = (toString fmt e₂).data ++ [] := by rw [h]
  exact (toString_prefix_unique fmt hfmt e₁ e₂ [] [] (by simp) (by simp) hd).1

/-- Witness of C17: a formatting that writes `1` as `1` and every other integer
as `2`, and the two trees `(x + 2)` built on the constants `2` and `3`. -/
theorem toString_determines_shape_witness :
    (∀ v : ℤ, ∀ c ∈ (if v = 1 then "1" else "2" : String).data,
        c ≠ ' ' ∧ c ≠ '(' ∧ c ≠ ')' ∧ c ≠ 'x')
    ∧ toString (fun v : ℤ => if v = 1 then "1" else "2") (Add Variable (Constant 2))
        = toString (fun v : ℤ => if v = 1 then "1" else "2") (Add Variable (Constant 3))
    ∧ shape (Add Variable (Constant (2 : ℤ))) = shape (Add Variable (Constant (3 : ℤ))) :=
  have hfmt : ∀ v : ℤ, ∀ c ∈ (if v = 1 then "1" else "2" : String).data,
      c ≠ ' ' ∧ c ≠ '(' ∧ c ≠ ')' ∧ c ≠ 'x' := by
    intro v c hc
    by_cases hv : v = 1
    · simp only [hv, if_true, List.mem_singleton] at hc
      subst hc
      decide
    · simp only [hv, if_false, List.mem_singleton] at hc
      subst hc
      decide
  ⟨hfmt, rfl,
    toString_determines_shape (fun v : ℤ => if v = 1 then "1" else "2")
      (Add Variable (Constant 2)) (Add Variable (Constant 3)) hfmt rfl⟩

/-! ## Variable-free expressions -/

/-- Claim C19, as amended. Derivative of a variable-free expression is
numerically zero: for every expression `e` that contains no `Variable` node and
on which `derivative()` succeeds with result `d`, and every `x`, `d` evaluates
to `0` in exact real arithmetic, provided no `Divide` divisor and no `Power`
base inside `e` evaluates to zero and every `Power` inside `e` whose base
evaluates to a negative number has an integer as its constant exponent. -/
theorem variable_free_derivative_zero (e d : Expression ℝ) (x : ℝ)
    (hvar : Variable ∉ subexpressions e)
    (hd : derivative Scalar.real e = .ok d)
    (hdiv : ∀ l r, Divide l r ∈ subexpressions e → evaluateExact r x ≠ some 0)
    (hpow : ∀ b ex, Power b ex ∈ subexpressions e → evaluateExact b x ≠ some 0)
    (hneg : ∀ b ex v, Power b ex ∈ subexpressions e → evaluateExact b x = some v → v < 0 →
      ∃ k : ℤ, ex = Constant (k : ℝ)) :
    evaluateExact d x = some 0 ∧ evaluate Scalar.real d x = 0 :=
  have h := (evaluateExact_derivative_variable_free e d x hvar hd hdiv hpow hneg).2
  ⟨h, evaluateExact_eq_evaluate d x 0 h⟩

/-- Witness of the amended C19: `(-2)^3` at `x = 0`, a negative base under an
integer exponent. -/
theorem variable_free_derivative_zero_witness :
    Variable ∉ subexpressions (Power (Constant (-2 : ℝ)) (Constant 3))
    ∧ derivative Scalar.real (Power (Constant (-2)) (Constant 3))
        = .ok (Multiply (Multiply (Constant 3) (Power (Constant (-2)) (Constant (3 - 1))))
            (Constant 0))
    ∧ evaluateExact
        (Multiply (Multiply (Constant 3) (Power (Constant (-2)) (Constant (3 - 1))))
          (Constant 0)) 0 = some 0 :=
  have hvar : Variable ∉ subexpressions (Power (Constant (-2 : ℝ)) (Constant 3)) := by
    simp [subexpressions]
  have hdiv : ∀ l r, Divide l r ∈ subexpressions (Power (Constant (-2 : ℝ)) (Constant 3)) →
      evaluateExact r 0 ≠ some 0 := by
    intro l r hm
    simp [subexpressions] at hm
  have hpow : ∀ b ex, Power b ex ∈ subexpressions (Power (Constant (-2 : ℝ)) (Constant 3)) →
      evaluateExact b 0 ≠ some 0 := by
    intro b ex hm
    simp only [subexpressions, List.mem_cons, List.mem_append, Power.injEq, reduceCtorEq,
      List.mem_singleton, List.not_mem_nil, or_false, false_or] at hm
    obtain ⟨rfl, -⟩ := hm
    simp [evaluateExact]
  have hneg : ∀ b ex v, Power b ex ∈ subexpressions (Power (Constant (-2 : ℝ)) (Constant 3)) →
      evaluateExact b 0 = some v → v < 0 → ∃ k : ℤ, ex = Constant (k : ℝ) := by
    intro b ex v hm _ _
    simp only [subexpressions, List.mem_cons, List.mem_append, Power.injEq, reduceCtorEq,
      List.mem_singleton, List.not_mem_nil, or_false, false_or] at hm
    obtain ⟨-, rfl⟩ := hm
    exact ⟨3, by norm_num⟩
  ⟨hvar, rfl,
    (variable_free_derivative_zero (Power (Constant (-2)) (Constant 3))
      (Multiply (Multiply (Constant 3) (Power (Constant (-2)) (Constant (3 - 1)))) (Constant 0))
      0 hvar rfl hdiv hpow hneg).1⟩

/-- Counterexample to C19 as stated: `(-2)^(1/2)` has no `Variable` node, no
`Divide` and a non-zero `Power` base, its `derivative()` succeeds, and the
result `(1/2 * (-2)^(1/2 - 1)) * 0` has no real value (the inner `std::pow` is a
domain error, NaN), so it does not evaluate to `0`. -/
theorem variable_free_derivative_counterexample :
    Variable ∉ subexpressions (Power (Constant (-2 : ℝ)) (Constant (1 / 2)))
    ∧ derivative Scalar.real (Power (Constant (-2)) (Constant (1 / 2)))
        = .ok (Multiply
            (Multiply (Constant (1 / 2)) (Power (Constant (-2)) (Constant (1 / 2 - 1))))
            (Constant 0))
    ∧ (∀ l r, Divide l r ∈ subexpressions (Power (Constant (-2 : ℝ)) (Constant (1 / 2))) →
        evaluateExact r 0 ≠ some 0)
    ∧ (∀ b ex, Power b ex ∈ subexpressions (Power (Constant (-2 : ℝ)) (Constant (1 / 2))) →
        evaluateExact b 0 ≠ some 0)
    ∧ evaluateExact
        (Multiply (Multiply (Constant (1 / 2)) (Power (Constant (-2)) (Constant (1 / 2 - 1))))
          (Constant 0)) 0 = none
    ∧ evaluateExact
        (Multiply (Multiply (Constant (1 / 2)) (Power (Constant (-2)) (Constant (1 / 2 - 1))))
          (Constant 0)) 0 ≠ some 0 := by
  have hp : ¬ PowDefined (-2) ((1 / 2 : ℝ) - 1) := by
    rintro (h | ⟨h, -⟩ | ⟨-, k, hk⟩)
    · norm_num at h
    · norm_num at h
    · have h2 : ((2 * k : ℤ) : ℝ) = ((-1 : ℤ) : ℝ) := by
        push_cast
        linarith
      have h3 : 2 * k = -1 := by exact_mod_cast h2
      omega
  have hnone : evaluateExact
      (Multiply (Multiply (Constant (1 / 2)) (Power (Constant (-2)) (Constant (1 / 2 - 1))))
        (Constant 0)) 0 = none := by
    exact evaluateExact_Multiply_none_left
      (evaluateExact_Multiply_none_right
        (evaluateExact_Power_undefined (evaluateExact_Constant (-2) 0)
          (evaluateExact_Constant (1 / 2 - 1) 0) hp))
  refine ⟨by simp [subexpressions], rfl, ?_, ?_, hnone, ?_⟩
  · intro l r hm
    simp [subexpressions] at hm
  · intro b ex hm
    simp only [subexpressions, List.mem_cons, List.mem_append, Power.injEq, reduceCtorEq,
      List.mem_singleton, List.not_mem_nil, or_false, false_or] at hm
    obtain ⟨rfl, -⟩ := hm
    simp [evaluateExact]
  · rw [hnone]
    exact fun h => Option.noConfusion h

end Expression

/-! ## The breadth-first iterator -/

namespace Graph

theorem mem_of_lookup {l : List (Int × List Int)} {k : Int} {ns : List Int}
    (h : l.lookup k = some ns) : (k, ns) ∈ l := by
  induction l with
  | nil => simp at h
  | cons p l ih =>
    obtain ⟨a, b⟩ := p
    by_cases hk : k = a
    · subst hk
      simp only [List.lookup_cons_self, Option.some.injEq] at h
      subst h
      exact List.mem_cons_self _ _
    · have hb : (k == a) = false := by simpa using hk
      simp only [List.lookup_cons, hb] at h
      exact List.mem_cons_of_mem _ (ih h)

theorem mem_foldr_append {l : List (Int × List Int)} {k x : Int} {ns : List Int}
    (h : (k, ns) ∈ l) (hx : x ∈ ns) : x ∈ l.foldr (fun p r => p.2 ++ r) [] := by
  induction l with
  | nil => simp at h
  | cons p l ih =>
    simp only [List.foldr_cons, List.mem_append]
    rcases List.mem_cons.1 h with h | h
    · subst h
      exact Or.inl hx
    · exact Or.inr (ih h)

theorem mem_targets {g : Graph} {k x : Int} {ns : List Int}
    (h : (k, ns) ∈ g.adj_) (hx : x ∈ ns) : x ∈ g.targets :=
  mem_foldr_append h hx

theorem mem_targets_of_edge {g : Graph} {u v : Int} (h : g.Edge u v) : v ∈ g.targets := by
  obtain ⟨ns, hl, hv⟩ := h
  exact mem_targets (mem_of_lookup hl) hv

/-- Every vertex reachable from `s` is `s` or the target of an edge. -/
theorem reachable_mem (g : Graph) (s x : Int) (h : Relation.ReflTransGen g.Edge s x) :
    x ∈ s :: g.targets := by
  rcases Relation.ReflTransGen.cases_tail h with h | ⟨u, -, hu⟩
  · subst h
    exact List.mem_cons_self _ _
  · exact List.mem_cons_of_mem _ (mem_targets_of_edge hu)

theorem lookup_map_push (l : List (Int × List Int)) (src dst k : Int) :
    (l.map (fun p => if p.1 = src then (p.1, p.2 ++ [dst]) else p)).lookup k
      = if k = src then (l.lookup k).map (fun ns => ns ++ [dst]) else l.lookup k := by
  induction l with
  | nil => simp
  | cons p l ih =>
    obtain ⟨a, b⟩ := p
    by_cases ha : a = src
    · subst ha
      by_cases hk : k = a
      · subst hk
        simp
      · have hb : (k == a) = false := by simpa using hk
        simp only [List.map_cons, if_true, List.lookup_cons, hb, hk, if_false] at ih ⊢
        exact ih
    · by_cases hk : k = a
      · subst hk
        simp [ha]
      · have hb : (k == a) = false := by simpa using hk
        simp only [List.map_cons, ha, if_false, List.lookup_cons, hb]
        exact ih

/-- The edges after `adj_[src].push_back(dst)`. -/
theorem edge_pushBack (adj : List (Int × List Int)) (src dst u v : Int) :
    (∃ ns, (pushBack adj src dst).lookup u = some ns ∧ v ∈ ns)
      ↔ (∃ ns, adj.lookup u = some ns ∧ v ∈ ns) ∨ (u = src ∧ v = dst) := by
  unfold pushBack
  cases hs : adj.lookup src with
  | none =>
    simp only [List.lookup_append]
    by_cases hu : u = src
    · subst hu
      simp [hs]
    · have hb : (u == src) = false := by simpa using hu
      cases hl : adj.lookup u <;> simp [List.lookup_cons, hb, hu]
  | some ms =>
    simp only [lookup_map_push]
    by_cases hu : u = src
    · subst hu
      simp only [hs, if_true, Option.map_some', Option.some.injEq, exists_eq_left',
        List.mem_append, List.mem_singleton, true_and]
    · simp [hu]

/-- The constructor's `ensureNode_` adds no edge. -/
theorem edge_ensureNode (g : Graph) (a u v : Int) :
    (g.ensureNode_ a).Edge u v ↔ g.Edge u v := by
  unfold Edge ensureNode_
  cases ha : g.adj_.lookup a with
  | some ms => simp
  | none =>
    simp only [Option.isNone_none, if_true, List.lookup_append]
    by_cases hu : u = a
    · subst hu
      simp [ha]
    · have hb : (u == a) = false := by simpa using hu
      cases hl : g.adj_.lookup u <;> simp [List.lookup_cons, hb]

/-- The edges after `addEdge(src, dst)`: the old ones and `src -> dst`. -/
theorem edge_addEdge (g : Graph) (src dst u v : Int) :
    (g.addEdge src dst).Edge u v ↔ g.Edge u v ∨ (u = src ∧ v = dst) := by
  have h := edge_pushBack ((g.ensureNode_ src).ensureNode_ dst).adj_ src dst u v
  have h₁ := edge_ensureNode (g.ensureNode_ src) dst u v
  have h₂ := edge_ensureNode g src u v
  unfold Edge at h₁ h₂ ⊢
  unfold addEdge
  simp only
  rw [h, h₁, h₂]

theorem edge_foldl (es : List (Int × Int)) (g : Graph) (u v : Int) :
    (es.foldl (fun g e => g.addEdge e.1 e.2) g).Edge u v ↔ g.Edge u v ∨ (u, v) ∈ es := by
  induction es generalizing g with
  | nil => simp
  | cons e es ih =>
    obtain ⟨a, b⟩ := e
    simp only [List.foldl_cons, ih, edge_addEdge, List.mem_cons, Prod.mk.injEq]
    tauto

/-- The edges of a graph built with `addEdge` are the pairs it was built from. -/
theorem edge_build (es : List (Int × Int)) (u v : Int) :
    (build es).Edge u v ↔ (u, v) ∈ es := by
  unfold build
  rw [edge_foldl]
  constructor
  · rintro (⟨ns, h, -⟩ | h)
    · simp [empty] at h
    · exact h
  · exact Or.inr

end Graph

namespace BFSIterator

/-- The loop over the neighbours appends to the queue, once each and in order,
the neighbours that were not discovered, and discovers all neighbours. -/
theorem visit_spec (q d ns : List Int) :
    ∃ fresh, (visit q d ns).1 = q ++ fresh ∧ fresh.Nodup
      ∧ (∀ x ∈ fresh, x ∉ d ∧ x ∈ ns)
      ∧ (∀ x, x ∈ (visit q d ns).2 ↔ x ∈ d ∨ x ∈ fresh)
      ∧ (∀ x ∈ ns, x ∈ (visit q d ns).2) := by
  induction ns generalizing q d with
  | nil => exact ⟨[], by simp [visit], List.nodup_nil, by simp, by simp [visit], by simp⟩
  | cons n rest ih =>
    by_cases hn : n ∈ d
    · obtain ⟨fresh, h1, h2, h3, h4, h5⟩ := ih q d
      have hv : visit q d (n :: rest) = visit q d rest := by simp [visit, hn]
      rw [hv]
      refine ⟨fresh, h1, h2,
        fun x hx => ⟨(h3 x hx).1, List.mem_cons_of_mem _ (h3 x hx).2⟩, h4, ?_⟩
      intro x hx
      rcases List.mem_cons.1 hx with rfl | hx
      · exact (h4 x).2 (Or.inl hn)
      · exact h5 x hx
    · obtain ⟨fresh, h1, h2, h3, h4, h5⟩ := ih (q ++ [n]) (n :: d)
      have hv : visit q d (n :: rest) = visit (q ++ [n]) (n :: d) rest := by simp [visit, hn]
      rw [hv]
      refine ⟨n :: fresh, by rw [h1]; simp, ?_, ?_, ?_, ?_⟩
      · exact List.nodup_cons.2 ⟨fun hmem => (h3 n hmem).1 (List.mem_cons_self _ _), h2⟩
      · intro x hx
        rcases List.mem_cons.1 hx with rfl | hx
        · exact ⟨hn, List.mem_cons_self _ _⟩
        · exact ⟨fun hd => (h3 x hx).1 (List.mem_cons_of_mem _ hd),
            List.mem_cons_of_mem _ (h3 x hx).2⟩
      · intro x
        rw [h4, List.mem_cons, List.mem_cons]
        tauto
      · intro x hx
        rcases List.mem_cons.1 hx with rfl | hx
        · exact (h4 x).2 (Or.inl (List.mem_cons_self _ _))
        · exact h5 x hx

theorem prepare_buffered (it : BFSIterator) (hb : it.buffered_ = true) : it.prepare_ = it := by
  simp [prepare_, hb]

theorem prepare_nil (it : BFSIterator) (hb : it.buffered_ = false) (hq : it.q_ = []) :
    it.prepare_ = it := by
  simp [prepare_, hb, hq]

theorem prepare_cons (it : BFSIterator) (v : Int) (q : List Int)
    (hb : it.buffered_ = false) (hq : it.q_ = v :: q) :
    it.prepare_ =
      { g_ := it.g_
        q_ := (visit q it.discovered_ ((it.g_.adj_.lookup v).getD [])).1
        discovered_ := (visit q it.discovered_ ((it.g_.adj_.lookup v).getD [])).2
        buffered_ := true
        value_ := v } := by
  cases hl : it.g_.adj_.lookup v <;> simp [prepare_, hb, hq, hl, visit]

/-- A second `prepare_()` in a row changes nothing. -/
theorem prepare_idem (it : BFSIterator) : it.prepare_.prepare_ = it.prepare_ := by
  cases hb : it.buffered_ with
  | true => rw [prepare_buffered it hb, prepare_buffered it hb]
  | false =>
    cases hq : it.q_ with
    | nil => rw [prepare_nil it hb hq, prepare_nil it hb hq]
    | cons v q =>
      rw [prepare_cons it v q hb hq]
      exact prepare_buffered _ rfl

theorem drain_succ (fuel : Nat) (it : BFSIterator) :
    drain (fuel + 1) it =
      if (hasNext it).1 then
        match next (hasNext it).2 with
        | .ok (v, it₂) => (drain fuel it₂).map (fun r => r.map (fun out => v :: out))
        | .error m => some (.error m)
      else some (.ok []) := rfl

theorem drain_nil (fuel : Nat) (it : BFSIterator) (hb : it.buffered_ = false)
    (hq : it.q_ = []) : drain (fuel + 1) it = some (.ok []) := by
  rw [drain_succ]
  simp [hasNext, prepare_nil it hb hq, hb]

theorem drain_cons (fuel : Nat) (it : BFSIterator) (v : Int) (q : List Int)
    (hb : it.buffered_ = false) (hq : it.q_ = v :: q) :
    drain (fuel + 1) it =
      (drain fuel
        { g_ := it.g_
          q_ := (visit q it.discovered_ ((it.g_.adj_.lookup v).getD [])).1
          discovered_ := (visit q it.discovered_ ((it.g_.adj_.lookup v).getD [])).2
          buffered_ := false
          value_ := v }).map (fun r => r.map (fun out => v :: out)) := by
  rw [drain_succ]
  simp only [hasNext, next, prepare_idem]
  rw [prepare_cons it v q hb hq]
  rfl

/-- More rounds do not change the outcome of a loop that has ended. -/
theorem drain_succ_of_some (fuel : Nat) :
    ∀ (it : BFSIterator) (r : Except String (List Int)),
      drain fuel it = some r → drain (fuel + 1) it = some r := by
  induction fuel with
  | zero =>
    intro it r h
    simp [drain] at h
  | succ n ih =>
    intro it r h
    rw [drain_succ] at h ⊢
    split
    · rename_i hn
      rw [if_pos hn] at h
      split
      · rename_i v it₂ hnx
        rw [hnx] at h
        simp only [Option.map_eq_some'] at h
        obtain ⟨r₂, hr₂, rfl⟩ := h
        rw [ih it₂ r₂ hr₂]
        rfl
      · rename_i m hnx
        rw [hnx] at h
        exact h
    · rename_i hn
      rw [if_neg hn] at h
      exact h

theorem drain_of_le (fuel fuel₂ : Nat) (hle : fuel ≤ fuel₂) (it : BFSIterator)
    (r : Except String (List Int)) (h : drain fuel it = some r) : drain fuel₂ it = some r := by
  induction hle with
  | refl => exact h
  | step _ ih => exact drain_succ_of_some _ it r ih

theorem edge_iff_getD (g : Graph) (u v : Int) :
    g.Edge u v ↔ v ∈ (g.adj_.lookup u).getD [] := by
  unfold Graph.Edge
  cases g.adj_.lookup u <;> simp

theorem inv_init (E : Int → Int → Prop) (s : Int) : Inv E s [] [s] [s] := by
  refine ⟨by simp, by simp, by simp, ?_, by simp⟩
  intro x hx
  rw [List.mem_singleton.1 hx]

/-- Handing out the front vertex of the queue keeps the state of the traversal. -/
theorem inv_step (g : Graph) (s v : Int) (acc q d : List Int)
    (h : Inv g.Edge s acc (v :: q) d) :
    Inv g.Edge s (acc ++ [v]) (visit q d ((g.adj_.lookup v).getD [])).1
      (visit q d ((g.adj_.lookup v).getD [])).2 := by
  obtain ⟨hnd, hmem, hcl, hre, hhd⟩ := h
  obtain ⟨fresh, h1, h2, h3, h4, h5⟩ := visit_spec q d ((g.adj_.lookup v).getD [])
  rw [h1]
  have hassoc : acc ++ [v] ++ (q ++ fresh) = (acc ++ v :: q) ++ fresh := by simp
  refine ⟨?_, ?_, ?_, ?_, ?_⟩
  · rw [hassoc]
    refine List.Nodup.append hnd h2 ?_
    intro x hx hf
    exact (h3 x hf).1 ((hmem x).2 (List.mem_append.1 hx))
  · intro x
    rw [h4, hmem]
    simp only [List.mem_append, List.mem_cons, List.mem_singleton]
    tauto
  · intro u hu w huw
    rcases List.mem_append.1 hu with hu | hu
    · exact (h4 w).2 (Or.inl (hcl u hu w huw))
    · rw [List.mem_singleton.1 hu] at huw
      exact h5 w ((edge_iff_getD g v w).1 huw)
  · intro x hx
    rcases (h4 x).1 hx with hx | hx
    · exact hre x hx
    · have hv : Relation.ReflTransGen g.Edge s v :=
        hre v ((hmem v).2 (Or.inr (List.mem_cons_self _ _)))
      exact hv.tail ((edge_iff_getD g v x).2 (h3 x hx).2)
  · rw [hassoc]
    cases hl : acc ++ v :: q with
    | nil => simp at hl
    | cons a l =>
      rw [hl] at hhd
      simpa using hhd

/-- With an empty queue the handed-out vertices are the reachable ones. -/
theorem inv_final (E : Int → Int → Prop) (s : Int) (acc d : List Int)
    (h : Inv E s acc [] d) :
    acc.head? = some s ∧ acc.Nodup ∧ ∀ x, x ∈ acc ↔ Relation.ReflTransGen E s x := by
  obtain ⟨hnd, hmem, hcl, hre, hhd⟩ := h
  rw [List.append_nil] at hnd hhd
  refine ⟨hhd, hnd, fun x => ⟨fun hx => hre x ((hmem x).2 (Or.inl hx)), fun hx => ?_⟩⟩
  induction hx with
  | refl => exact List.mem_of_mem_head? hhd
  | tail _ huv ih =>
    rcases (hmem _).1 (hcl _ ih _ huv) with hv | hv
    · exact hv
    · simp at hv

/-- The loop ends within the rounds left by the vertices not yet handed out, and
what it hands out completes `acc` to the reachable vertices, each once. -/
theorem drain_spec (g : Graph) (s : Int) :
    ∀ (fuel : Nat) (acc : List Int) (it : BFSIterator), it.g_ = g → it.buffered_ = false →
      Inv g.Edge s acc it.q_ it.discovered_ →
      (s :: g.targets).length < fuel + acc.length →
      ∃ out, drain fuel it = some (.ok out) ∧ (acc ++ out).head? = some s
        ∧ (acc ++ out).Nodup ∧ ∀ x, x ∈ acc ++ out ↔ Relation.ReflTransGen g.Edge s x := by
  intro fuel
  induction fuel with
  | zero =>
    intro acc it _ _ hinv hlen
    exfalso
    obtain ⟨hnd, hmem, -, hre, -⟩ := hinv
    have hsub : acc ⊆ s :: g.targets := fun x hx =>
      Graph.reachable_mem g s x (hre x ((hmem x).2 (Or.inl hx)))
    have hle := (List.Nodup.subperm (List.Nodup.of_append_left hnd) hsub).length_le
    omega
  | succ n ih =>
    intro acc it hg hb hinv hlen
    cases hq : it.q_ with
    | nil =>
      rw [hq] at hinv
      refine ⟨[], drain_nil n it hb hq, ?_⟩
      rw [List.append_nil]
      exact inv_final g.Edge s acc it.discovered_ hinv
    | cons v q =>
      rw [hq] at hinv
      have hstep := inv_step g s v acc q it.discovered_ hinv
      obtain ⟨out, hout, hfin⟩ := ih (acc ++ [v])
        { g_ := it.g_
          q_ := (visit q it.discovered_ ((it.g_.adj_.lookup v).getD [])).1
          discovered_ := (visit q it.discovered_ ((it.g_.adj_.lookup v).getD [])).2
          buffered_ := false
          value_ := v } hg rfl (by rw [hg]; exact hstep)
        (by rw [List.length_append, List.length_singleton]; omega)
      refine ⟨v :: out, ?_, ?_⟩
      · rw [drain_cons n it v q hb hq, hout]
        rfl
      · have hassoc : acc ++ v :: out = acc ++ [v] ++ out := by simp
        rw [hassoc]
        exact hfin

end BFSIterator

namespace BFSIterator

/-- Claim C20. BFS iteration visits each reachable vertex exactly once: for the
graph built with `addEdge` from any list of edges (cycles and duplicate edges
allowed) and every start vertex `s`, the loop `while (hasNext()) next()` on a
`BFSIterator` ends (from some number of rounds on, its outcome is the same list
and no exception), the list begins with `s`, has no repetition, and holds
exactly the vertices reachable from `s`; a second `hasNext()` in a row returns
the same answer and leaves the iterator as the first did; and for the edges
`1->2, 1->3, 2->4` and start `1` the list is `1, 2, 3, 4`. -/
theorem bfs_visits_reachable_once (es : List (Int × Int)) (s : Int) (it : BFSIterator) :
    (∃ fuel out, (∀ n, fuel ≤ n → drain n (new (Graph.build es) s) = some (.ok out))
        ∧ out.head? = some s ∧ out.Nodup
        ∧ ∀ v, v ∈ out ↔ Relation.ReflTransGen (fun a b => (a, b) ∈ es) s v)
    ∧ hasNext (hasNext it).2 = hasNext it
    ∧ drain 5 (new (Graph.build [(1, 2), (1, 3), (2, 4)]) 1) = some (.ok [1, 2, 3, 4]) := by
  refine ⟨?_, ?_, rfl⟩
  · have hedge : ∀ a b, ((Graph.build es).ensureNode_ s).Edge a b ↔ (a, b) ∈ es := fun a b => by
      rw [Graph.edge_ensureNode, Graph.edge_build]
    obtain ⟨out, hout, hhd, hnd, hmem⟩ :=
      drain_spec ((Graph.build es).ensureNode_ s) s
        ((s :: ((Graph.build es).ensureNode_ s).targets).length + 1) []
        (new (Graph.build es) s) rfl rfl (inv_init _ s) (by simp)
    rw [List.nil_append] at hhd hnd
    refine ⟨_, out, fun n hn => drain_of_le _ n hn _ _ hout, hhd, hnd, fun v => ?_⟩
    rw [← List.nil_append out, hmem v]
    constructor
    · exact Relation.ReflTransGen.mono fun a b h => (hedge a b).1 h
    · exact Relation.ReflTransGen.mono fun a b h => (hedge a b).2 h
  · simp only [hasNext, prepare_idem]

end BFSIterator
